import Mathlib

/-! Verification of the `dcr` DICOM terminal viewer core.

Shallow embedding of the Rust sources:
  * `src/dicom.rs`      — tag-tree data model, diff engine, value truncation
  * `src/validation.rs` — Type 1 mandatory-field validation engine
  * `src/app.rs`        — visibility projection, path location, expand/collapse,
                          search filtering, selection handling

Rust `String` values are modelled as `List Char` (UTF-8 byte order on Rust
strings coincides with code-point order, so Lean's lexicographic order on
`List Char` agrees with `str::cmp`). In-place mutation is modelled by
functional update; a Rust panic is modelled by an `Option` result.
-/

namespace Dcr

/-- Rust `String` / `&str`, modelled as its sequence of Unicode scalar values. -/
abbrev Str := List Char

/-- Shorthand for turning a Lean string literal into the model type. -/
def str (s : String) : Str := s.data

/-- Enum `DiffStatus` from `src/dicom.rs`: status of a tag in diff mode.
Exactly as in the source, the `Changed` variant carries no payload. -/
inductive DiffStatus : Type where
  | Unchanged : DiffStatus
  | Added : DiffStatus
  | Deleted : DiffStatus
  | Changed : DiffStatus
deriving DecidableEq, Repr

/-- Struct `DicomTag` from `src/dicom.rs`: a single DICOM tag with its properties.
The struct there has exactly these nine fields (in particular it has no
`baseline_value` field, although `src/ui.rs` and `tests/dicom_tests.rs`
refer to one). Rust's recursive `Vec<DicomTag>` children become a nested
inductive. -/
inductive DicomTag : Type where
  | mk (tag : Str) (name : Str) (vr : Str) (value : Str) (depth : Nat)
      (is_expandable : Bool) (is_expanded : Bool)
      (children : List DicomTag) (diff_status : Option DiffStatus) : DicomTag

namespace DicomTag

/-- Field accessor for `tag` (the "(GGGG,EEEE)" identifier). -/
def tag : DicomTag → Str
  | mk t _ _ _ _ _ _ _ _ => t

/-- Field accessor for `name`. -/
def name : DicomTag → Str
  | mk _ n _ _ _ _ _ _ _ => n

/-- Field accessor for `vr`. -/
def vr : DicomTag → Str
  | mk _ _ v _ _ _ _ _ _ => v

/-- Field accessor for `value` (the display value). -/
def value : DicomTag → Str
  | mk _ _ _ v _ _ _ _ _ => v

/-- Field accessor for `depth`. -/
def depth : DicomTag → Nat
  | mk _ _ _ _ d _ _ _ _ => d

/-- Field accessor for `is_expandable`. -/
def is_expandable : DicomTag → Bool
  | mk _ _ _ _ _ e _ _ _ => e

/-- Field accessor for `is_expanded`. -/
def is_expanded : DicomTag → Bool
  | mk _ _ _ _ _ _ e _ _ => e

/-- Field accessor for `children`. -/
def children : DicomTag → List DicomTag
  | mk _ _ _ _ _ _ _ c _ => c

/-- Field accessor for `diff_status`. -/
def diff_status : DicomTag → Option DiffStatus
  | mk _ _ _ _ _ _ _ _ d => d

/-- Functional update of the `diff_status` field
(Rust `result_tag.diff_status = Some(st)`). -/
def withDiffStatus : DicomTag → Option DiffStatus → DicomTag
  | mk t n v val d ea ee c _, ds => mk t n v val d ea ee c ds

/-- Functional update of the `is_expanded` field
(Rust `tags[idx].is_expanded = expanded`). -/
def withExpanded : DicomTag → Bool → DicomTag
  | mk t n v val d ea _ c ds, b => mk t n v val d ea b c ds

/-- Functional update of the `children` field (used to model in-place
mutation of a node's subtree). -/
def withChildren : DicomTag → List DicomTag → DicomTag
  | mk t n v val d ea ee _ ds, c => mk t n v val d ea ee c ds

end DicomTag

/-! Diff engine (`compare_dicom_files`, `src/dicom.rs` lines 59–110)

File loading is an external collaborator; the engine proper works on the two
already-loaded root forests. The Rust `HashMap` built by inserting every
baseline root in order resolves duplicate identifiers to the *last* insert,
which we model by searching the reversed baseline list. -/

/-- Lookup in the baseline map (`baseline_map.get(tag_id)`): the `HashMap`
holds, for each identifier, the last baseline root inserted with it. -/
def lookupBaseline (baseline : List DicomTag) (id : Str) : Option DicomTag :=
  baseline.reverse.find? (fun t => t.tag == id)

/-- The comparator passed to `result_tags.sort_by(|a, b| a.tag.cmp(&b.tag))`,
as a boolean total preorder. -/
def tagLe (a b : DicomTag) : Bool := decide (a.tag ≤ b.tag)

/-- Function `compare_dicom_files` from `src/dicom.rs` (the pure part, after the two
loads): annotate every modified root with Added/Unchanged/Changed against the
baseline map, append the unseen baseline roots as Deleted, and sort by
identifier. `baseline_seen` is the set of identifiers of modified roots that
were found in the baseline map. -/
def compareDicomTags (baseline_tags modified_tags : List DicomTag) : List DicomTag :=
  let processed := modified_tags.map (fun m =>
    let ds : DiffStatus :=
      match lookupBaseline baseline_tags m.tag with
      | some b => if b.value == m.value then .Unchanged else .Changed
      | none => .Added
    m.withDiffStatus (some ds))
  let baseline_seen : List Str :=
    (modified_tags.filter (fun m => (lookupBaseline baseline_tags m.tag).isSome)).map (·.tag)
  let deleted := (baseline_tags.filter (fun b => !(baseline_seen.contains b.tag))).map
    (fun b => b.withDiffStatus (some .Deleted))
  (processed ++ deleted).mergeSort tagLe

/-! Display-value truncation (`truncate_value` / `format_value`, `src/dicom.rs` 212–235)

Rust indexes strings by UTF-8 bytes: `s.len()` is the byte length and
`&s[..n]` panics when `n` is not a character boundary. -/

/-- Rust `str::len`: the length in UTF-8 bytes. -/
def byteLen (s : Str) : Nat := (s.map Char.utf8Size).sum

/-- Rust byte slicing `&s[..n]`: the characters making up the first `n`
bytes, or `none` — modelling the panic — when byte index `n` falls inside a
character (or past the end). -/
def bytePrefix : Str → Nat → Option Str
  | _, 0 => some []
  | [], _ + 1 => none
  | c :: cs, n + 1 =>
    if c.utf8Size ≤ n + 1 then
      (bytePrefix cs (n + 1 - c.utf8Size)).map (c :: ·)
    else none

/-- Function `truncate_value` from `src/dicom.rs`:
`if s.len() > max_len { format!("{}...", &s[..max_len]) } else { s.to_string() }`.
The `none` result models the Rust panic of `&s[..max_len]`. -/
def truncate_value (s : Str) (max_len : Nat) : Option Str :=
  if byteLen s > max_len then
    (bytePrefix s max_len).map (· ++ str "...")
  else
    some s

/-! Validation engine (`src/validation.rs`) -/

/-- A DICOM attribute tag `(group, element)` (`dicom::core::Tag`). -/
abbrev AttrTag := Nat × Nat

/-- One data-set element as the validation engine observes it: its tag and
the result of `to_str()` (`none` when the value has no textual conversion,
e.g. pixel data). -/
structure DicomElement where
  tag : AttrTag
  toStr : Option Str

/-- The opened DICOM data set, as the list of its elements. Tags are unique
in a DICOM data set; `obj.element(tag)` is lookup by tag. -/
abbrev DicomObject := List DicomElement

/-- Lookup `obj.element(tag)`, as an `Option`. -/
def element? (obj : DicomObject) (t : AttrTag) : Option DicomElement :=
  obj.find? (fun e => e.tag == t)

/-- Rust `str::trim`: strip whitespace from both ends. -/
def trim (s : Str) : Str :=
  ((s.dropWhile Char.isWhitespace).reverse.dropWhile Char.isWhitespace).reverse

/-- Enum `ValidationResult` from `src/validation.rs`. -/
inductive ValidationResult : Type where
  | Valid : ValidationResult
  | Invalid (missing : List Str) : ValidationResult
  | NotApplicable : ValidationResult
deriving DecidableEq, Repr

/-- SOP Common Module Type 1 tags. -/
def SOP_COMMON_TYPE1_TAGS : List (AttrTag × Str) :=
  [((0x0008, 0x0016), str "SOPClassUID"),
   ((0x0008, 0x0018), str "SOPInstanceUID")]

/-- General Study Module Type 1 tags. -/
def GENERAL_STUDY_TYPE1_TAGS : List (AttrTag × Str) :=
  [((0x0020, 0x000D), str "StudyInstanceUID")]

/-- General Series Module Type 1 tags. -/
def GENERAL_SERIES_TYPE1_TAGS : List (AttrTag × Str) :=
  [((0x0008, 0x0060), str "Modality"),
   ((0x0020, 0x000E), str "SeriesInstanceUID")]

/-- Frame of Reference Module Type 1 tags. -/
def FRAME_OF_REFERENCE_TYPE1_TAGS : List (AttrTag × Str) :=
  [((0x0020, 0x0052), str "FrameOfReferenceUID")]

/-- Image Plane Module Type 1 tags. -/
def IMAGE_PLANE_TYPE1_TAGS : List (AttrTag × Str) :=
  [((0x0020, 0x0032), str "ImagePositionPatient"),
   ((0x0020, 0x0037), str "ImageOrientationPatient"),
   ((0x0028, 0x0030), str "PixelSpacing")]

/-- Image Pixel Module Type 1 tags. -/
def IMAGE_PIXEL_TYPE1_TAGS : List (AttrTag × Str) :=
  [((0x0028, 0x0002), str "SamplesPerPixel"),
   ((0x0028, 0x0004), str "PhotometricInterpretation"),
   ((0x0028, 0x0010), str "Rows"),
   ((0x0028, 0x0011), str "Columns"),
   ((0x0028, 0x0100), str "BitsAllocated"),
   ((0x0028, 0x0101), str "BitsStored"),
   ((0x0028, 0x0102), str "HighBit"),
   ((0x0028, 0x0103), str "PixelRepresentation"),
   ((0x7FE0, 0x0010), str "PixelData")]

/-- CT Image Module Type 1 tags (CT only). -/
def CT_IMAGE_TYPE1_TAGS : List (AttrTag × Str) :=
  [((0x0008, 0x0008), str "ImageType"),
   ((0x0028, 0x1052), str "RescaleIntercept"),
   ((0x0028, 0x1053), str "RescaleSlope")]

/-- MR Image Module Type 1 tags (MR only). -/
def MR_IMAGE_TYPE1_TAGS : List (AttrTag × Str) :=
  [((0x0008, 0x0008), str "ImageType"),
   ((0x0018, 0x0020), str "ScanningSequence"),
   ((0x0018, 0x0021), str "SequenceVariant"),
   ((0x0018, 0x0023), str "MRAcquisitionType")]

/-- Tag constant `tags::SOP_CLASS_UID` (0008,0016). -/
def SOP_CLASS_UID : AttrTag := (0x0008, 0x0016)

/-- UID constant `uids::CT_IMAGE_STORAGE`. -/
def CT_IMAGE_STORAGE : Str := str "1.2.840.10008.5.1.4.1.1.2"

/-- UID constant `uids::MR_IMAGE_STORAGE`. -/
def MR_IMAGE_STORAGE : Str := str "1.2.840.10008.5.1.4.1.1.4"

/-- Function `is_tag_present` from `src/validation.rs`: the element exists and, when
`to_str()` succeeds, the trimmed text is non-empty; non-string values count
as present merely by existing. -/
def is_tag_present (obj : DicomObject) (t : AttrTag) : Bool :=
  match element? obj t with
  | none => false
  | some e =>
    match e.toStr with
    | some s => !(trim s).isEmpty
    | none => true

/-- One of the `for (tag, name) in TABLE { if !is_tag_present(&obj, *tag)
{ missing_tags.push(name) } }` loops of `validate_type1_fields`. -/
def pushMissing (obj : DicomObject) : List (AttrTag × Str) → List Str
  | [] => []
  | (t, n) :: rest =>
    if is_tag_present obj t then pushMissing obj rest else n :: pushMissing obj rest

/-- The tail of `validate_type1_fields` after the modality table has been
selected: run the seven table loops in order and inspect the accumulated
`missing_tags`. -/
def finishValidation (obj : DicomObject) (modality_tags : List (AttrTag × Str)) :
    ValidationResult :=
  let missing :=
    pushMissing obj SOP_COMMON_TYPE1_TAGS ++
    pushMissing obj GENERAL_STUDY_TYPE1_TAGS ++
    pushMissing obj GENERAL_SERIES_TYPE1_TAGS ++
    pushMissing obj FRAME_OF_REFERENCE_TYPE1_TAGS ++
    pushMissing obj IMAGE_PLANE_TYPE1_TAGS ++
    pushMissing obj IMAGE_PIXEL_TYPE1_TAGS ++
    pushMissing obj modality_tags
  if missing.isEmpty then .Valid else .Invalid missing

/-- Function `validate_type1_fields` from `src/validation.rs` (the pure part, on the
already-opened object): read and trim the SOP Class UID, pick the modality
table, then check all tables. -/
def validate_type1_fields (obj : DicomObject) : ValidationResult :=
  match ((element? obj SOP_CLASS_UID).bind (·.toStr)).map trim with
  | none => .NotApplicable
  | some uid =>
    if uid == CT_IMAGE_STORAGE then
      finishValidation obj CT_IMAGE_TYPE1_TAGS
    else if uid == MR_IMAGE_STORAGE then
      finishValidation obj MR_IMAGE_TYPE1_TAGS
    else .NotApplicable

/-! Visibility projection, path location and expansion (`src/app.rs`) -/

/-- Method `App::collect_visible_tags` / `build_visible_tags_from`: pre-order
flattening that descends only into expanded, non-childless nodes. -/
def collectVisibleTags : List DicomTag → List DicomTag
  | [] => []
  | t :: rest =>
    t :: ((if t.is_expanded && !t.children.isEmpty then collectVisibleTags t.children
           else []) ++ collectVisibleTags rest)
termination_by tags => sizeOf tags
decreasing_by
  all_goals simp <;> (cases t; simp [DicomTag.children]; omega)

/-- Structural path lookup: the node reached from the forest roots by the
given chain of child indices (`none` for the empty path or any out-of-range
index). Used to state what the path-based operations do. -/
def getAtPath : List DicomTag → List Nat → Option DicomTag
  | _, [] => none
  | tags, idx :: rest =>
    match tags.get? idx with
    | none => none
    | some t => if rest.isEmpty then some t else getAtPath t.children rest

/-- The expansion flag of the node at a structural path, when the path is
valid. -/
def flagAt (tags : List DicomTag) (path : List Nat) : Option Bool :=
  (getAtPath tags path).map (·.is_expanded)

/-- Erase every expansion flag in the forest, keeping all other fields and
the tree structure. Two forests with equal `stripFlags` differ at most in
expansion flags. -/
def stripFlags : List DicomTag → List DicomTag
  | [] => []
  | t :: rest => (t.withExpanded false).withChildren (stripFlags t.children) :: stripFlags rest
termination_by tags => sizeOf tags
decreasing_by
  all_goals simp <;> (cases t; simp [DicomTag.children]; omega)

/-- Method `App::set_expanded_in_tree` from `src/app.rs`: walk the path, set the
`is_expanded` flag at the final index; any out-of-range index (or an empty
path) makes the whole operation a no-op. In-place mutation of `tags[idx]`
becomes `List.set`. -/
def setExpandedInTree (tags : List DicomTag) (path : List Nat) (expanded : Bool) :
    List DicomTag :=
  match path with
  | [] => tags
  | idx :: rest =>
    if h : idx < tags.length then
      if rest.isEmpty then
        tags.set idx ((tags.get ⟨idx, h⟩).withExpanded expanded)
      else
        tags.set idx ((tags.get ⟨idx, h⟩).withChildren
          (setExpandedInTree (tags.get ⟨idx, h⟩).children rest expanded))
    else tags

/-- Method `App::find_path_to_index` from `src/app.rs`: the same depth-first walk as
the projector, with the running visible-position counter threaded explicitly.
Returns the path (head index and tail) when the counter reaches the target,
and the advanced counter otherwise. The Rust `enumerate` index is realised by
shifting the head index by one when the search continues in the tail of the
list; `path.push(i)` before recursing / `path.pop()` on failure becomes
consing the index onto a successful recursive result. -/
def findPath : List DicomTag → Nat → Nat → Option (Nat × List Nat) × Nat
  | [], _, cur => (none, cur)
  | t :: rest, target, cur =>
    if cur = target then (some (0, []), cur)
    else
      let step :=
        if t.is_expanded && !t.children.isEmpty then
          match findPath t.children target (cur + 1) with
          | (some (j, p), c) => (some (0, j :: p), c)
          | (none, c) => (none, c)
        else (none, cur + 1)
      match step with
      | (some jp, c) => (some jp, c)
      | (none, c) =>
        match findPath rest target c with
        | (some (j, p), c2) => (some (j + 1, p), c2)
        | (none, c2) => (none, c2)
termination_by tags _ _ => sizeOf tags
decreasing_by
  all_goals simp <;> (cases t; simp [DicomTag.children]; omega)

/-- Method `App::build_path_to_tag`: run the search from counter 0 over the active
forest; an unsuccessful search leaves the path empty. -/
def buildPathToTag (tags : List DicomTag) (visible_idx : Nat) : List Nat :=
  match (findPath tags visible_idx 0).1 with
  | some (j, p) => j :: p
  | none => []

/-- The root-depth invariant of the data model: every root carries depth `d`
and children carry their parent's depth plus one. -/
def depthOkF (d : Nat) : List DicomTag → Bool
  | [] => true
  | t :: rest => (t.depth == d) && depthOkF (d + 1) t.children && depthOkF d rest
termination_by tags => sizeOf tags
decreasing_by
  all_goals simp <;> (cases t; simp [DicomTag.children]; omega)

/-- The condition tested by `collapse_parent`'s backward scan at flattened
position `i`: depth strictly smaller than the cursor's and currently
expanded. -/
def scanPred (tags : List DicomTag) (D : Nat) (i : Nat) : Bool :=
  match tags.get? i with
  | some t => decide (t.depth < D) && t.is_expanded
  | none => false

/-- The backward scan `for i in (0..selected_idx).rev() { ... break }` of
`collapse_parent`: the first position, scanning downward from `idx - 1`,
satisfying `scanPred`. -/
def scanBack (tags : List DicomTag) (idx D : Nat) : Option Nat :=
  (List.range idx).reverse.find? (fun i => scanPred tags D i)

/-- Rust `str::to_lowercase` (per-character lowercasing). -/
def lowerStr (s : Str) : Str := s.map Char.toLower

/-- The fields of `App` (`src/app.rs`) that the core state machine reads and
writes. `tags` is the flattened visible view, `all_tags` the unfiltered
forest, `filtered_tags` the root-filtered subset while a search is active,
`selected` the cursor (`table_state.selected()`). -/
structure AppState where
  all_tags : List DicomTag
  filtered_tags : Option (List DicomTag)
  tags : List DicomTag
  selected : Option Nat
  search_query : Str
  search_mode : Bool

/-- Method `App::active_tags`: the hierarchical source currently driving the view. -/
def activeTags (s : AppState) : List DicomTag :=
  s.filtered_tags.getD s.all_tags

/-- Writing through `App::active_tags_mut`: the mutation lands on
`filtered_tags` when a filter is active, otherwise on `all_tags`. -/
def setActive (s : AppState) (src : List DicomTag) : AppState :=
  match s.filtered_tags with
  | some _ => { s with filtered_tags := some src }
  | none => { s with all_tags := src }

/-- Method `App::rebuild_visible_tags`: recompute the flattened view from the active
source. -/
def rebuildVisibleTags (s : AppState) : AppState :=
  { s with tags := collectVisibleTags (activeTags s) }

/-- Method `App::reset_selection`: cursor to the first visible row, or no selection
when the view is empty. -/
def resetSelection (s : AppState) : AppState :=
  if s.tags.isEmpty then { s with selected := none } else { s with selected := some 0 }

/-- Method `App::expand_selected` from `src/app.rs`. -/
def expandSelected (s : AppState) : AppState :=
  match s.selected with
  | none => s
  | some idx =>
    if h : idx < s.tags.length then
      let t := s.tags.get ⟨idx, h⟩
      if t.is_expandable && !t.is_expanded then
        let p := buildPathToTag (activeTags s) idx
        rebuildVisibleTags (setActive s (setExpandedInTree (activeTags s) p true))
      else s
    else s

/-- Method `App::collapse_parent` from `src/app.rs`: scan backward for the nearest
preceding shallower expanded node, collapse it through its structural path,
rebuild the view, and select its (old) flattened position. -/
def collapseParent (s : AppState) : AppState :=
  match s.selected with
  | none => s
  | some idx =>
    if h : idx < s.tags.length then
      if 0 < (s.tags.get ⟨idx, h⟩).depth then
        match scanBack s.tags idx (s.tags.get ⟨idx, h⟩).depth with
        | some i =>
          let p := buildPathToTag (activeTags s) i
          let s1 := rebuildVisibleTags (setActive s (setExpandedInTree (activeTags s) p false))
          { s1 with selected := some i }
        | none => s
      else s
    else s

/-- Method `App::filter_tags` from `src/app.rs`: an empty query drops the filter;
otherwise retain exactly the roots whose identifier or name contains the
lowercased query, keeping each retained root (and its whole subtree) intact;
then rebuild the view and reset the selection. -/
def filterTags (s : AppState) : AppState :=
  let s1 :=
    if s.search_query.isEmpty then
      rebuildVisibleTags { s with filtered_tags := none }
    else
      let query := lowerStr s.search_query
      let filtered := s.all_tags.filter (fun t =>
        decide (query <:+: lowerStr t.tag) || decide (query <:+: lowerStr t.name))
      rebuildVisibleTags { s with filtered_tags := some filtered }
  resetSelection s1

/-- The filter-clearing transition of `handle_events` (Esc while searching,
or q/Esc in normal mode with a non-empty query): clear the query, drop the
filtered subset, rebuild the view from the unfiltered forest, reset the
selection. -/
def clearFilter (s : AppState) : AppState :=
  resetSelection (rebuildVisibleTags
    { s with search_mode := false, search_query := [], filtered_tags := none })

/-- The two expansion-state mutations available from the keyboard. -/
inductive ViewOp : Type where
  | expand : ViewOp
  | collapse : ViewOp

/-- Dispatch one keyboard mutation. -/
def applyViewOp (s : AppState) : ViewOp → AppState
  | .expand => expandSelected s
  | .collapse => collapseParent s

/-- A whole interactive sequence of expand/collapse operations. -/
def applyViewOps (s : AppState) (ops : List ViewOp) : AppState :=
  ops.foldl applyViewOp s

/-! Concrete sample data (used by witnesses and counterexamples) -/

/-- A leaf root tag with the given identifier, name and display value. -/
def sampleLeaf (t n v : String) (d : Nat) : DicomTag :=
  .mk (str t) (str n) (str "LO") (str v) d false false [] none

/-- A collapsed expandable sequence root with two leaf children
(the forest of spec §8, scenario 1). -/
def sampleSeq : DicomTag :=
  .mk (str "(0008,1110)") (str "ReferencedStudySequence") (str "SQ")
    (str "<Sequence with 1 item(s)>") 0 true false
    [sampleLeaf "(0008,0100)" "CodeValue" "121327" 1,
     sampleLeaf "(0008,0102)" "CodingSchemeDesignator" "DCM" 1] none

/-- The two-root sample forest: a leaf followed by a collapsed sequence. -/
def sampleForest : List DicomTag :=
  [sampleLeaf "(0010,0010)" "PatientName" "DOE^JOHN" 0, sampleSeq]

/-! C3 — the validation engine -/

/-- The claim's notion of a field being present, stated independently of the
code: an element with the identifier exists and, whenever its value is
textual, the text is non-empty after trimming whitespace (non-textual values
are present merely by existing). -/
def FieldPresent (obj : DicomObject) (t : AttrTag) : Prop :=
  ∃ e, element? obj t = some e ∧ ∀ s, e.toStr = some s → trim s ≠ []

/-- The six always-required ("common") tables, concatenated in the order the
seven loops of `validate_type1_fields` run. -/
def commonTypeOneTables : List (AttrTag × Str) :=
  SOP_COMMON_TYPE1_TAGS ++ GENERAL_STUDY_TYPE1_TAGS ++ GENERAL_SERIES_TYPE1_TAGS ++
  FRAME_OF_REFERENCE_TYPE1_TAGS ++ IMAGE_PLANE_TYPE1_TAGS ++ IMAGE_PIXEL_TYPE1_TAGS

/-- A complete CT image object: the SOP Class UID names CT Image Storage and
every field of the common and CT tables is present (pixel data is
non-textual). -/
def sampleCtObject : DicomObject :=
  [⟨(0x0008, 0x0016), some (str "1.2.840.10008.5.1.4.1.1.2")⟩,
   ⟨(0x0008, 0x0018), some (str "1.2.3.4.5.6")⟩,
   ⟨(0x0020, 0x000D), some (str "1.2.3.4")⟩,
   ⟨(0x0008, 0x0060), some (str "CT")⟩,
   ⟨(0x0020, 0x000E), some (str "1.2.3.4.5")⟩,
   ⟨(0x0020, 0x0052), some (str "1.2.3.4.9")⟩,
   ⟨(0x0020, 0x0032), some (str "0\\0\\0")⟩,
   ⟨(0x0020, 0x0037), some (str "1\\0\\0\\0\\1\\0")⟩,
   ⟨(0x0028, 0x0030), some (str "1\\1")⟩,
   ⟨(0x0028, 0x0002), some (str "1")⟩,
   ⟨(0x0028, 0x0004), some (str "MONOCHROME2")⟩,
   ⟨(0x0028, 0x0010), some (str "512")⟩,
   ⟨(0x0028, 0x0011), some (str "512")⟩,
   ⟨(0x0028, 0x0100), some (str "16")⟩,
   ⟨(0x0028, 0x0101), some (str "12")⟩,
   ⟨(0x0028, 0x0102), some (str "11")⟩,
   ⟨(0x0028, 0x0103), some (str "0")⟩,
   ⟨(0x7FE0, 0x0010), none⟩,
   ⟨(0x0008, 0x0008), some (str "ORIGINAL\\PRIMARY\\AXIAL")⟩,
   ⟨(0x0028, 0x1052), some (str "0")⟩,
   ⟨(0x0028, 0x1053), some (str "1")⟩]

/-- Sample application state over the sample forest, in search mode with the
given query and no filter applied yet. -/
def sampleSearchState (q : Str) : AppState :=
  { all_tags := sampleForest, filtered_tags := none,
    tags := collectVisibleTags sampleForest, selected := some 0,
    search_query := q, search_mode := true }

/-- Sample state in which the search "0008" filtered the sample forest down
to its sequence root. -/
def sampleFilteredState : AppState :=
  { all_tags := sampleForest, filtered_tags := some [sampleSeq],
    tags := collectVisibleTags [sampleSeq], selected := some 0,
    search_query := str "0008", search_mode := false }

/-! C6 — the path locator -/

/-- The sequence root of the sample forest, expanded. -/
def sampleSeqExpanded : DicomTag :=
  .mk (str "(0008,1110)") (str "ReferencedStudySequence") (str "SQ")
    (str "<Sequence with 1 item(s)>") 0 true true
    [sampleLeaf "(0008,0100)" "CodeValue" "121327" 1,
     sampleLeaf "(0008,0102)" "CodingSchemeDesignator" "DCM" 1] none

/-- The sample forest with its sequence root expanded: four visible rows. -/
def sampleForestExpanded : List DicomTag :=
  [sampleLeaf "(0010,0010)" "PatientName" "DOE^JOHN" 0, sampleSeqExpanded]

/-! C7 — collapse_parent -/

/-- Consistent sample state: the expanded sample forest with its four-row
projection and the cursor on the first child (depth 1, visible row 2). -/
def sampleCollapseState : AppState :=
  { all_tags := sampleForestExpanded, filtered_tags := none,
    tags := [sampleLeaf "(0010,0010)" "PatientName" "DOE^JOHN" 0, sampleSeqExpanded,
             sampleLeaf "(0008,0100)" "CodeValue" "121327" 1,
             sampleLeaf "(0008,0102)" "CodingSchemeDesignator" "DCM" 1],
    selected := some 2, search_query := [], search_mode := false }

/-! C2 — the diff engine -/

/-- The first pass of `compare_dicom_files`: every modified root annotated
against the baseline map. -/
def processedTags (A B : List DicomTag) : List DicomTag :=
  B.map (fun m =>
    let ds : DiffStatus :=
      match lookupBaseline A m.tag with
      | some b => if b.value == m.value then .Unchanged else .Changed
      | none => .Added
    m.withDiffStatus (some ds))

/-- The second pass of `compare_dicom_files`: the baseline roots whose
identifier was never matched, annotated `Deleted`. -/
def deletedTags (A B : List DicomTag) : List DicomTag :=
  (A.filter (fun b =>
      !(((B.filter (fun m => (lookupBaseline A m.tag).isSome)).map (·.tag)).contains b.tag))).map
    (fun b => b.withDiffStatus (some .Deleted))

/-- The spec §8 scenario-2 baseline: X with value "A", Y with value "foo". -/
def sampleBaselineRoots : List DicomTag :=
  [sampleLeaf "(0010,0010)" "PatientName" "A" 0,
   sampleLeaf "(0010,0020)" "PatientID" "foo" 0]

/-- The spec §8 scenario-2 modified file: X with value "B", Z with value
"bar" (no Y). -/
def sampleModifiedRoots : List DicomTag :=
  [sampleLeaf "(0010,0010)" "PatientName" "B" 0,
   sampleLeaf "(0010,0030)" "PatientBirthDate" "bar" 0]

namespace DicomTag

@[simp] theorem tag_mk (t n v val d ea ee c ds) :
    (mk t n v val d ea ee c ds).tag = t := rfl

@[simp] theorem name_mk (t n v val d ea ee c ds) :
    (mk t n v val d ea ee c ds).name = n := rfl

@[simp] theorem vr_mk (t n v val d ea ee c ds) :
    (mk t n v val d ea ee c ds).vr = v := rfl

@[simp] theorem value_mk (t n v val d ea ee c ds) :
    (mk t n v val d ea ee c ds).value = val := rfl

@[simp] theorem depth_mk (t n v val d ea ee c ds) :
    (mk t n v val d ea ee c ds).depth = d := rfl

@[simp] theorem is_expandable_mk (t n v val d ea ee c ds) :
    (mk t n v val d ea ee c ds).is_expandable = ea := rfl

@[simp] theorem is_expanded_mk (t n v val d ea ee c ds) :
    (mk t n v val d ea ee c ds).is_expanded = ee := rfl

@[simp] theorem children_mk (t n v val d ea ee c ds) :
    (mk t n v val d ea ee c ds).children = c := rfl

@[simp] theorem diff_status_mk (t n v val d ea ee c ds) :
    (mk t n v val d ea ee c ds).diff_status = ds := rfl

@[simp] theorem tag_withDiffStatus (x : DicomTag) (ds) : (x.withDiffStatus ds).tag = x.tag := by
  cases x; rfl

@[simp] theorem name_withDiffStatus (x : DicomTag) (ds) : (x.withDiffStatus ds).name = x.name := by
  cases x; rfl

@[simp] theorem value_withDiffStatus (x : DicomTag) (ds) :
    (x.withDiffStatus ds).value = x.value := by
  cases x; rfl

@[simp] theorem diff_status_withDiffStatus (x : DicomTag) (ds) :
    (x.withDiffStatus ds).diff_status = ds := by
  cases x; rfl

@[simp] theorem tag_withExpanded (x : DicomTag) (b) : (x.withExpanded b).tag = x.tag := by
  cases x; rfl

@[simp] theorem name_withExpanded (x : DicomTag) (b) : (x.withExpanded b).name = x.name := by
  cases x; rfl

@[simp] theorem value_withExpanded (x : DicomTag) (b) : (x.withExpanded b).value = x.value := by
  cases x; rfl

@[simp] theorem depth_withExpanded (x : DicomTag) (b) : (x.withExpanded b).depth = x.depth := by
  cases x; rfl

@[simp] theorem is_expandable_withExpanded (x : DicomTag) (b) :
    (x.withExpanded b).is_expandable = x.is_expandable := by
  cases x; rfl

@[simp] theorem is_expanded_withExpanded (x : DicomTag) (b) :
    (x.withExpanded b).is_expanded = b := by
  cases x; rfl

@[simp] theorem children_withExpanded (x : DicomTag) (b) :
    (x.withExpanded b).children = x.children := by
  cases x; rfl

@[simp] theorem diff_status_withExpanded (x : DicomTag) (b) :
    (x.withExpanded b).diff_status = x.diff_status := by
  cases x; rfl

@[simp] theorem tag_withChildren (x : DicomTag) (c) : (x.withChildren c).tag = x.tag := by
  cases x; rfl

@[simp] theorem depth_withChildren (x : DicomTag) (c) : (x.withChildren c).depth = x.depth := by
  cases x; rfl

@[simp] theorem is_expanded_withChildren (x : DicomTag) (c) :
    (x.withChildren c).is_expanded = x.is_expanded := by
  cases x; rfl

@[simp] theorem children_withChildren (x : DicomTag) (c) :
    (x.withChildren c).children = c := by
  cases x; rfl

theorem withChildren_self (x : DicomTag) : x.withChildren x.children = x := by
  cases x; rfl

@[simp] theorem withChildren_withChildren (x : DicomTag) (a b) :
    (x.withChildren a).withChildren b = x.withChildren b := by
  cases x; rfl

@[simp] theorem withExpanded_withChildren (x : DicomTag) (c b) :
    (x.withChildren c).withExpanded b = (x.withExpanded b).withChildren c := by
  cases x; rfl

theorem withExpanded_self (x : DicomTag) : x.withExpanded x.is_expanded = x := by
  cases x; rfl

theorem sizeOf_children_lt (x : DicomTag) : sizeOf x.children < sizeOf x := by
  cases x with
  | mk t n v val d ea ee c ds => simp [children]; omega

@[simp] theorem withExpanded_withExpanded (x : DicomTag) (a b) :
    (x.withExpanded a).withExpanded b = x.withExpanded b := by
  cases x; rfl

end DicomTag

/-! Helper lemmas about paths and expansion -/

/-- Nested structural induction over a forest: to prove a property of every
forest it suffices to prove it for `[]` and for `t :: rest` given it for
`t.children` and for `rest`. -/
theorem forest_induction {motive : List DicomTag → Prop}
    (nil : motive [])
    (cons : ∀ t rest, motive t.children → motive rest → motive (t :: rest)) :
    ∀ tags, motive tags
  | [] => nil
  | t :: rest =>
    cons t rest (forest_induction nil cons t.children) (forest_induction nil cons rest)
termination_by tags => sizeOf tags
decreasing_by
  all_goals simp <;> (cases t; simp [DicomTag.children]; omega)

theorem collectVisibleTags_nil : collectVisibleTags [] = [] := by
  rw [collectVisibleTags]

theorem collectVisibleTags_cons (t : DicomTag) (rest : List DicomTag) :
    collectVisibleTags (t :: rest)
      = t :: ((if t.is_expanded && !t.children.isEmpty then collectVisibleTags t.children
           else []) ++ collectVisibleTags rest) := by
  rw [collectVisibleTags]

theorem list_set_self {α : Type _} (l : List α) (i : Nat) (h : i < l.length) :
    l.set i l[i] = l := by
  apply List.ext_getElem?
  intro n
  by_cases hn : n = i
  · subst hn
    simp [List.getElem?_set_self h, List.getElem?_eq_getElem h]
  · simp [List.getElem?_set_ne (Ne.symm hn)]

@[simp] theorem getAtPath_nil_path (tags : List DicomTag) : getAtPath tags [] = none := rfl

theorem getAtPath_cons (tags : List DicomTag) (i : Nat) (rest : List Nat) :
    getAtPath tags (i :: rest)
      = match tags.get? i with
        | none => none
        | some t => if rest.isEmpty then some t else getAtPath t.children rest := rfl

@[simp] theorem setExpandedInTree_nil_path (tags : List DicomTag) (v : Bool) :
    setExpandedInTree tags [] v = tags := rfl

theorem setExpandedInTree_oob (tags : List DicomTag) (idx : Nat) (rest : List Nat) (v : Bool)
    (h : tags.length ≤ idx) : setExpandedInTree tags (idx :: rest) v = tags := by
  simp [setExpandedInTree, Nat.not_lt.mpr h]

theorem setExpandedInTree_last (tags : List DicomTag) (idx : Nat) (v : Bool)
    (h : idx < tags.length) :
    setExpandedInTree tags [idx] v = tags.set idx (tags[idx].withExpanded v) := by
  simp [setExpandedInTree, h]

theorem setExpandedInTree_deep (tags : List DicomTag) (idx : Nat) (rest : List Nat) (v : Bool)
    (h : idx < tags.length) (hne : rest ≠ []) :
    setExpandedInTree tags (idx :: rest) v
      = tags.set idx (tags[idx].withChildren (setExpandedInTree tags[idx].children rest v)) := by
  simp [setExpandedInTree, h, List.isEmpty_iff, hne]

theorem getAtPath_cons_lt (tags : List DicomTag) (j : Nat) (qrest : List Nat)
    (hlt : j < tags.length) :
    getAtPath tags (j :: qrest)
      = if qrest.isEmpty then some tags[j] else getAtPath tags[j].children qrest := by
  rw [getAtPath_cons]
  simp [List.getElem?_eq_getElem hlt]

theorem getAtPath_cons_ge (tags : List DicomTag) (j : Nat) (qrest : List Nat)
    (hge : tags.length ≤ j) : getAtPath tags (j :: qrest) = none := by
  rw [getAtPath_cons]
  simp [List.getElem?_eq_none hge]

theorem getAtPath_set_cons (tags : List DicomTag) (j : Nat) (x : DicomTag) (qrest : List Nat)
    (hlt : j < tags.length) :
    getAtPath (tags.set j x) (j :: qrest)
      = if qrest.isEmpty then some x else getAtPath x.children qrest := by
  rw [getAtPath_cons]
  simp [List.getElem?_set_self (by simpa using hlt)]

theorem getAtPath_set_cons_ne (tags : List DicomTag) (i j : Nat) (x : DicomTag)
    (qrest : List Nat) (hne : i ≠ j) :
    getAtPath (tags.set i x) (j :: qrest) = getAtPath tags (j :: qrest) := by
  rw [getAtPath_cons, getAtPath_cons]
  simp [List.getElem?_set_ne hne]

theorem setExpandedInTree_invalid (tags : List DicomTag) (path : List Nat) (v : Bool)
    (h : getAtPath tags path = none) : setExpandedInTree tags path v = tags := by
  induction path generalizing tags with
  | nil => rfl
  | cons i rest ih =>
    by_cases hlt : i < tags.length
    · rw [getAtPath_cons_lt tags i rest hlt] at h
      by_cases hre : rest.isEmpty
      · simp [hre] at h
      · have hrne : rest ≠ [] := by simpa [List.isEmpty_iff] using hre
        have hchild : getAtPath tags[i].children rest = none := by
          simpa [hre] using h
        rw [setExpandedInTree_deep tags i rest v hlt hrne, ih tags[i].children hchild,
          DicomTag.withChildren_self]
        exact list_set_self tags i hlt
    · exact setExpandedInTree_oob tags i rest v (Nat.not_lt.mp hlt)

theorem getAtPath_setExpandedInTree (tags : List DicomTag) (path : List Nat) (v : Bool) :
    getAtPath (setExpandedInTree tags path v) path
      = (getAtPath tags path).map (fun t => t.withExpanded v) := by
  induction path generalizing tags with
  | nil => rfl
  | cons i rest ih =>
    by_cases hlt : i < tags.length
    · by_cases hre : rest.isEmpty
      · have hrnil : rest = [] := List.isEmpty_iff.mp hre
        subst hrnil
        rw [setExpandedInTree_last tags i v hlt,
          getAtPath_set_cons tags i _ [] hlt, getAtPath_cons_lt tags i [] hlt]
        simp
      · have hrne : rest ≠ [] := by simpa [List.isEmpty_iff] using hre
        rw [setExpandedInTree_deep tags i rest v hlt hrne,
          getAtPath_set_cons tags i _ rest hlt, getAtPath_cons_lt tags i rest hlt]
        simp [hre, ih]
    · have hge := Nat.not_lt.mp hlt
      rw [setExpandedInTree_oob tags i rest v hge, getAtPath_cons_ge tags i rest hge]
      rfl

theorem flagAt_setExpandedInTree_ne (tags : List DicomTag) (path q : List Nat) (v : Bool)
    (hne : q ≠ path) : flagAt (setExpandedInTree tags path v) q = flagAt tags q := by
  induction path generalizing tags q with
  | nil => rfl
  | cons i rest ih =>
    by_cases hlt : i < tags.length
    · match q with
      | [] => simp [flagAt]
      | j :: qrest =>
        by_cases hij : i = j
        · subst hij
          have hqrest : qrest ≠ rest := by
            intro hc
            exact hne (by rw [hc])
          by_cases hre : rest.isEmpty
          · have hrnil : rest = [] := List.isEmpty_iff.mp hre
            subst hrnil
            have hqne : ¬ qrest.isEmpty := by
              simpa [List.isEmpty_iff] using hqrest
            rw [flagAt, flagAt, setExpandedInTree_last tags i v hlt,
              getAtPath_set_cons tags i _ qrest hlt, getAtPath_cons_lt tags i qrest hlt]
            simp [hqne]
          · have hrne : rest ≠ [] := by simpa [List.isEmpty_iff] using hre
            rw [flagAt, flagAt, setExpandedInTree_deep tags i rest v hlt hrne,
              getAtPath_set_cons tags i _ qrest hlt, getAtPath_cons_lt tags i qrest hlt]
            by_cases hqe : qrest.isEmpty
            · simp [hqe]
            · have := ih tags[i].children qrest hqrest
              rw [flagAt, flagAt] at this
              simpa [hqe] using this
        · by_cases hre : rest.isEmpty
          · have hrnil : rest = [] := List.isEmpty_iff.mp hre
            subst hrnil
            rw [flagAt, flagAt, setExpandedInTree_last tags i v hlt,
              getAtPath_set_cons_ne tags i j _ qrest hij]
          · have hrne : rest ≠ [] := by simpa [List.isEmpty_iff] using hre
            rw [flagAt, flagAt, setExpandedInTree_deep tags i rest v hlt hrne,
              getAtPath_set_cons_ne tags i j _ qrest hij]
    · rw [setExpandedInTree_oob tags i rest v (Nat.not_lt.mp hlt)]

theorem getAtPath_cons_zero (t : DicomTag) (ts : List DicomTag) (p : List Nat) :
    getAtPath (t :: ts) (0 :: p) = if p.isEmpty then some t else getAtPath t.children p := by
  rw [getAtPath_cons]
  rfl

theorem getAtPath_cons_succ (t : DicomTag) (ts : List DicomTag) (j : Nat) (p : List Nat) :
    getAtPath (t :: ts) ((j + 1) :: p) = getAtPath ts (j :: p) := by
  rw [getAtPath_cons, getAtPath_cons]
  rfl

theorem length_setExpandedInTree (tags : List DicomTag) (path : List Nat) (v : Bool) :
    (setExpandedInTree tags path v).length = tags.length := by
  match path with
  | [] => rfl
  | idx :: rest =>
    by_cases hlt : idx < tags.length
    · by_cases hre : rest.isEmpty
      · have : rest = [] := List.isEmpty_iff.mp hre
        subst this
        rw [setExpandedInTree_last tags idx v hlt]
        simp
      · rw [setExpandedInTree_deep tags idx rest v hlt (by simpa [List.isEmpty_iff] using hre)]
        simp
    · rw [setExpandedInTree_oob tags idx rest v (Nat.not_lt.mp hlt)]

theorem setExpandedInTree_cons_zero_last (t : DicomTag) (ts : List DicomTag) (v : Bool) :
    setExpandedInTree (t :: ts) [0] v = t.withExpanded v :: ts := by
  rw [setExpandedInTree_last (t :: ts) 0 v (by simp)]
  rfl

theorem setExpandedInTree_cons_zero_deep (t : DicomTag) (ts : List DicomTag) (p : List Nat)
    (v : Bool) (hp : p ≠ []) :
    setExpandedInTree (t :: ts) (0 :: p) v
      = t.withChildren (setExpandedInTree t.children p v) :: ts := by
  rw [setExpandedInTree_deep (t :: ts) 0 p v (by simp) hp]
  rfl

theorem setExpandedInTree_cons_succ (t : DicomTag) (ts : List DicomTag) (j : Nat)
    (p : List Nat) (v : Bool) :
    setExpandedInTree (t :: ts) ((j + 1) :: p) v = t :: setExpandedInTree ts (j :: p) v := by
  by_cases hlt : j < ts.length
  · have hlt2 : j + 1 < (t :: ts).length := by
      simp
      omega
    by_cases hre : p.isEmpty
    · have : p = [] := List.isEmpty_iff.mp hre
      subst this
      rw [setExpandedInTree_last (t :: ts) (j + 1) v hlt2, setExpandedInTree_last ts j v hlt]
      simp
    · have hpne : p ≠ [] := by simpa [List.isEmpty_iff] using hre
      rw [setExpandedInTree_deep (t :: ts) (j + 1) p v hlt2 hpne,
        setExpandedInTree_deep ts j p v hlt hpne]
      simp
  · have h1 : (t :: ts).length ≤ j + 1 := by
      simp
      omega
    rw [setExpandedInTree_oob (t :: ts) (j + 1) p v h1,
      setExpandedInTree_oob ts j p v (Nat.not_lt.mp hlt)]

theorem findPath_nil (target cur : Nat) : findPath [] target cur = (none, cur) := by
  rw [findPath]

theorem findPath_fail : ∀ (tags : List DicomTag) (target cur : Nat),
    (target < cur ∨ cur + (collectVisibleTags tags).length ≤ target) →
    findPath tags target cur = (none, cur + (collectVisibleTags tags).length) := by
  intro tags
  induction tags using forest_induction with
  | nil =>
    intro target cur h
    rw [findPath_nil, collectVisibleTags_nil]
    simp
  | cons t rest ihc ihr =>
    intro target cur h
    rw [collectVisibleTags_cons] at h ⊢
    have hlen : (t :: ((if t.is_expanded && !t.children.isEmpty then collectVisibleTags t.children
           else []) ++ collectVisibleTags rest)).length
        = 1 + (if t.is_expanded && !t.children.isEmpty then collectVisibleTags t.children
           else []).length + (collectVisibleTags rest).length := by
      simp
      omega
    have hne : ¬ cur = target := by
      rcases h with h | h
      · omega
      · rw [hlen] at h
        omega
    rw [findPath, if_neg hne]
    by_cases hexp : (t.is_expanded && !t.children.isEmpty) = true
    · have hcfail : findPath t.children target (cur + 1)
          = (none, cur + 1 + (collectVisibleTags t.children).length) := by
        apply ihc
        rcases h with h | h
        · omega
        · rw [hlen, if_pos hexp] at h
          omega
      have hrfail : findPath rest target (cur + 1 + (collectVisibleTags t.children).length)
          = (none, cur + 1 + (collectVisibleTags t.children).length
              + (collectVisibleTags rest).length) := by
        apply ihr
        rcases h with h | h
        · omega
        · rw [hlen, if_pos hexp] at h
          omega
      simp only [hexp, if_pos, hcfail, hrfail]
      simp [hexp]
      omega
    · have hrfail : findPath rest target (cur + 1)
          = (none, cur + 1 + (collectVisibleTags rest).length) := by
        apply ihr
        rcases h with h | h
        · omega
        · rw [hlen, if_neg hexp] at h
          simp at h
          omega
      simp only [hexp, if_neg, Bool.false_eq_true, if_false, hrfail]
      simp [hexp]
      omega

theorem isEmpty_setExpandedInTree (l : List DicomTag) (p : List Nat) (v : Bool) :
    (setExpandedInTree l p v).isEmpty = l.isEmpty := by
  have hlen := length_setExpandedInTree l p v
  cases h1 : setExpandedInTree l p v <;> cases l <;> simp_all

theorem findPath_found : ∀ (tags : List DicomTag) (target cur : Nat),
    cur ≤ target → target < cur + (collectVisibleTags tags).length →
    ∃ j p n c,
      findPath tags target cur = (some (j, p), c) ∧
      getAtPath tags (j :: p) = some n ∧
      (collectVisibleTags tags)[target - cur]? = some n ∧
      (collectVisibleTags (setExpandedInTree tags (j :: p) false))[target - cur]?
        = some (n.withExpanded false) := by
  intro tags
  induction tags using forest_induction with
  | nil =>
    intro target cur h1 h2
    rw [collectVisibleTags_nil] at h2
    simp at h2
    omega
  | cons t rest ihc ihr =>
    intro target cur h1 h2
    by_cases hct : cur = target
    · -- the head node is the target
      refine ⟨0, [], t, cur, ?_, ?_, ?_, ?_⟩
      · rw [findPath, if_pos hct]
      · rw [getAtPath_cons_zero]
        rfl
      · rw [collectVisibleTags_cons]
        have : target - cur = 0 := by omega
        rw [this]
        simp
      · rw [setExpandedInTree_cons_zero_last, collectVisibleTags_cons]
        have h0 : target - cur = 0 := by omega
        rw [h0]
        simp
    · -- the target is strictly below the head
      have hcur : cur < target := Nat.lt_of_le_of_ne h1 hct
      rw [collectVisibleTags_cons] at h2
      by_cases hexp : (t.is_expanded && !t.children.isEmpty) = true
      · by_cases hin : target < cur + 1 + (collectVisibleTags t.children).length
        · -- target inside the visible subtree of the head
          obtain ⟨j, p, n, c, e1, e2, e3, e4⟩ :=
            ihc target (cur + 1) (by omega) (by omega)
          refine ⟨0, j :: p, n, c, ?_, ?_, ?_, ?_⟩
          · rw [findPath, if_neg hct]
            simp only [hexp, if_pos, e1]
          · rw [getAtPath_cons_zero]
            simpa using e2
          · have hidx : target - cur = (target - (cur + 1)) + 1 := by omega
            rw [collectVisibleTags_cons, hidx]
            rw [List.getElem?_cons_succ]
            have hbound : target - (cur + 1) < (collectVisibleTags t.children).length := by
              omega
            rw [if_pos hexp, List.getElem?_append_left hbound]
            exact e3
          · rw [setExpandedInTree_cons_zero_deep t rest (j :: p) false (by simp)]
            rw [collectVisibleTags_cons]
            have hcond : ((t.withChildren (setExpandedInTree t.children (j :: p) false)).is_expanded
                && !(t.withChildren (setExpandedInTree t.children (j :: p) false)).children.isEmpty)
                = true := by
              simp only [DicomTag.is_expanded_withChildren, DicomTag.children_withChildren,
                isEmpty_setExpandedInTree]
              exact hexp
            rw [if_pos hcond]
            have hidx : target - cur = (target - (cur + 1)) + 1 := by omega
            rw [hidx, List.getElem?_cons_succ, DicomTag.children_withChildren]
            have hbound : target - (cur + 1)
                < (collectVisibleTags (setExpandedInTree t.children (j :: p) false)).length := by
              have := List.getElem?_eq_some.mp e4
              exact this.1
            rw [List.getElem?_append_left hbound]
            exact e4
        · -- target is past the visible subtree of the head: search the tail
          have hcfail : findPath t.children target (cur + 1)
              = (none, cur + 1 + (collectVisibleTags t.children).length) :=
            findPath_fail t.children target (cur + 1) (Or.inr (by omega))
          obtain ⟨j, p, n, c, e1, e2, e3, e4⟩ :=
            ihr target (cur + 1 + (collectVisibleTags t.children).length)
              (by omega) (by rw [if_pos hexp] at h2; simp at h2 ⊢; omega)
          refine ⟨j + 1, p, n, c, ?_, ?_, ?_, ?_⟩
          · rw [findPath, if_neg hct]
            simp only [hexp, if_pos, hcfail, e1]
          · rw [getAtPath_cons_succ]
            exact e2
          · rw [collectVisibleTags_cons, if_pos hexp]
            have hidx : target - cur = ((target - cur) - 1) + 1 := by omega
            rw [hidx, List.getElem?_cons_succ]
            have hge : (collectVisibleTags t.children).length ≤ (target - cur) - 1 := by omega
            rw [List.getElem?_append_right hge]
            have harith : (target - cur) - 1 - (collectVisibleTags t.children).length
                = target - (cur + 1 + (collectVisibleTags t.children).length) := by omega
            rw [harith]
            exact e3
          · rw [setExpandedInTree_cons_succ, collectVisibleTags_cons, if_pos hexp]
            have hidx : target - cur = ((target - cur) - 1) + 1 := by omega
            rw [hidx, List.getElem?_cons_succ]
            have hge : (collectVisibleTags t.children).length ≤ (target - cur) - 1 := by omega
            rw [List.getElem?_append_right hge]
            have harith : (target - cur) - 1 - (collectVisibleTags t.children).length
                = target - (cur + 1 + (collectVisibleTags t.children).length) := by omega
            rw [harith]
            exact e4
      · -- the head has no visible subtree: search the tail from cur + 1
        obtain ⟨j, p, n, c, e1, e2, e3, e4⟩ :=
          ihr target (cur + 1)
            (by omega) (by rw [if_neg hexp] at h2; simp at h2 ⊢; omega)
        refine ⟨j + 1, p, n, c, ?_, ?_, ?_, ?_⟩
        · rw [findPath, if_neg hct]
          simp only [hexp, if_neg, Bool.false_eq_true, if_false, e1]
        · rw [getAtPath_cons_succ]
          exact e2
        · rw [collectVisibleTags_cons, if_neg hexp]
          have hidx : target - cur = ((target - cur) - 1) + 1 := by omega
          rw [hidx, List.getElem?_cons_succ]
          simpa using e3
        · rw [setExpandedInTree_cons_succ, collectVisibleTags_cons, if_neg hexp]
          have hidx : target - cur = ((target - cur) - 1) + 1 := by omega
          rw [hidx, List.getElem?_cons_succ]
          simpa using e4

theorem stripFlags_nil : stripFlags [] = [] := by
  simp [stripFlags]

theorem stripFlags_cons (t : DicomTag) (rest : List DicomTag) :
    stripFlags (t :: rest)
      = (t.withExpanded false).withChildren (stripFlags t.children) :: stripFlags rest := by
  simp [stripFlags]

theorem length_stripFlags (l : List DicomTag) : (stripFlags l).length = l.length := by
  induction l with
  | nil => simp [stripFlags_nil]
  | cons t rest ih => simp [stripFlags_cons, ih]

theorem getElem?_stripFlags (l : List DicomTag) (i : Nat) :
    (stripFlags l)[i]?
      = l[i]?.map (fun t => (t.withExpanded false).withChildren (stripFlags t.children)) := by
  induction l generalizing i with
  | nil => simp [stripFlags_nil]
  | cons t rest ih =>
    cases i with
    | zero => simp [stripFlags_cons]
    | succ n => simpa [stripFlags_cons] using ih n

theorem stripFlags_set (l : List DicomTag) (i : Nat) (x : DicomTag) :
    stripFlags (l.set i x)
      = (stripFlags l).set i ((x.withExpanded false).withChildren (stripFlags x.children)) := by
  induction l generalizing i with
  | nil => simp [stripFlags_nil]
  | cons t rest ih =>
    cases i with
    | zero => simp [stripFlags_cons]
    | succ n => simp [stripFlags_cons, ih]

theorem stripFlags_set_self (tags : List DicomTag) (i : Nat) (x : DicomTag)
    (hlt : i < tags.length)
    (hx : (x.withExpanded false).withChildren (stripFlags x.children)
        = (tags[i].withExpanded false).withChildren (stripFlags tags[i].children)) :
    stripFlags (tags.set i x) = stripFlags tags := by
  rw [stripFlags_set, hx]
  have h2 : i < (stripFlags tags).length := by
    rw [length_stripFlags]
    exact hlt
  have h3 : (stripFlags tags)[i]
      = (tags[i].withExpanded false).withChildren (stripFlags tags[i].children) := by
    have := getElem?_stripFlags tags i
    rw [List.getElem?_eq_getElem hlt, List.getElem?_eq_getElem h2] at this
    simpa using this
  rw [← h3]
  exact list_set_self _ i h2

theorem stripFlags_setExpandedInTree (tags : List DicomTag) (path : List Nat) (v : Bool) :
    stripFlags (setExpandedInTree tags path v) = stripFlags tags := by
  induction path generalizing tags with
  | nil => rfl
  | cons i rest ih =>
    by_cases hlt : i < tags.length
    · by_cases hre : rest.isEmpty
      · have hrnil : rest = [] := List.isEmpty_iff.mp hre
        subst hrnil
        rw [setExpandedInTree_last tags i v hlt]
        exact stripFlags_set_self tags i _ hlt (by simp)
      · have hrne : rest ≠ [] := by simpa [List.isEmpty_iff] using hre
        rw [setExpandedInTree_deep tags i rest v hlt hrne]
        exact stripFlags_set_self tags i _ hlt (by simp [ih])
    · rw [setExpandedInTree_oob tags i rest v (Nat.not_lt.mp hlt)]

theorem setExpandedInTree_setExpandedInTree (tags : List DicomTag) (path : List Nat)
    (v w : Bool) :
    setExpandedInTree (setExpandedInTree tags path v) path w = setExpandedInTree tags path w := by
  induction path generalizing tags with
  | nil => rfl
  | cons i rest ih =>
    by_cases hlt : i < tags.length
    · by_cases hre : rest.isEmpty
      · have hrnil : rest = [] := List.isEmpty_iff.mp hre
        subst hrnil
        rw [setExpandedInTree_last tags i v hlt]
        have hlt2 : i < (tags.set i (tags[i].withExpanded v)).length := by
          simpa using hlt
        rw [setExpandedInTree_last _ i w hlt2, setExpandedInTree_last tags i w hlt]
        simp [List.set_set]
      · have hrne : rest ≠ [] := by simpa [List.isEmpty_iff] using hre
        rw [setExpandedInTree_deep tags i rest v hlt hrne]
        have hlt2 : i < (tags.set i
            (tags[i].withChildren (setExpandedInTree tags[i].children rest v))).length := by
          simpa using hlt
        rw [setExpandedInTree_deep _ i rest w hlt2 hrne, setExpandedInTree_deep tags i rest w hlt hrne]
        simp [List.set_set, ih]
    · have hge := Nat.not_lt.mp hlt
      rw [setExpandedInTree_oob tags i rest v hge]

theorem setExpandedInTree_id (tags : List DicomTag) (path : List Nat) (n : DicomTag)
    (h : getAtPath tags path = some n) :
    setExpandedInTree tags path n.is_expanded = tags := by
  induction path generalizing tags n with
  | nil => simp at h
  | cons i rest ih =>
    by_cases hlt : i < tags.length
    · rw [getAtPath_cons_lt tags i rest hlt] at h
      by_cases hre : rest.isEmpty
      · have hrnil : rest = [] := List.isEmpty_iff.mp hre
        subst hrnil
        have hn : n = tags[i] := by simpa using h.symm
        subst hn
        rw [setExpandedInTree_last tags i _ hlt, DicomTag.withExpanded_self]
        exact list_set_self tags i hlt
      · have hrne : rest ≠ [] := by simpa [List.isEmpty_iff] using hre
        have hchild : getAtPath tags[i].children rest = some n := by
          simpa [hre] using h
        rw [setExpandedInTree_deep tags i rest _ hlt hrne, ih tags[i].children n hchild,
          DicomTag.withChildren_self]
        exact list_set_self tags i hlt
    · rw [getAtPath_cons_ge tags i rest (Nat.not_lt.mp hlt)] at h
      simp at h

/-! C5 — path-addressed expansion mutation -/

/-- C5: for every forest, path and boolean, `set_expanded_in_tree` sets the
expansion flag of exactly the node at the path's final index: an invalid path
(empty, or with an out-of-range index at any level) leaves the forest
completely unchanged; on a valid path everything except expansion flags is
preserved (`stripFlags` equal), the flag at the path becomes the given value,
and the flag at every other path is untouched. It never panics and never
partially applies. -/
theorem c5_set_expanded_exact_or_noop (tags : List DicomTag) (path : List Nat) (v : Bool) :
    (getAtPath tags path = none → setExpandedInTree tags path v = tags) ∧
    stripFlags (setExpandedInTree tags path v) = stripFlags tags ∧
    getAtPath (setExpandedInTree tags path v) path
      = (getAtPath tags path).map (fun t => t.withExpanded v) ∧
    (∀ q, q ≠ path → flagAt (setExpandedInTree tags path v) q = flagAt tags q) :=
  ⟨setExpandedInTree_invalid tags path v,
   stripFlags_setExpandedInTree tags path v,
   getAtPath_setExpandedInTree tags path v,
   fun q hq => flagAt_setExpandedInTree_ne tags path q v hq⟩

/-- Witness for C5 on the sample forest: path `[7]` is out of range, so the
operation is a no-op; expanding at path `[1]` leaves the flag at path `[0]`
untouched. -/
theorem c5_set_expanded_exact_or_noop_witness :
    setExpandedInTree sampleForest [7] true = sampleForest ∧
    flagAt (setExpandedInTree sampleForest [1] true) [0] = flagAt sampleForest [0] :=
  ⟨(c5_set_expanded_exact_or_noop sampleForest [7] true).1 rfl,
   (c5_set_expanded_exact_or_noop sampleForest [1] true).2.2.2 [0] (by decide)⟩

/-! C9 — expand-then-collapse round-trips the projection -/

/-- C9: for every forest and valid path to a collapsed expandable node,
expanding that node and then collapsing it again yields a visibility
projection identical to the one before the expansion. -/
theorem c9_expand_collapse_roundtrip (tags : List DicomTag) (path : List Nat) (n : DicomTag)
    (hget : getAtPath tags path = some n) (_hexpandable : n.is_expandable = true)
    (hcollapsed : n.is_expanded = false) :
    collectVisibleTags (setExpandedInTree (setExpandedInTree tags path true) path false)
      = collectVisibleTags tags := by
  rw [setExpandedInTree_setExpandedInTree]
  have hfalse : setExpandedInTree tags path false = setExpandedInTree tags path n.is_expanded := by
    rw [hcollapsed]
  rw [hfalse, setExpandedInTree_id tags path n hget]

/-- Witness for C9: expanding and re-collapsing the sequence root of the
sample forest at path `[1]` restores the two-row projection. -/
theorem c9_expand_collapse_roundtrip_witness :
    collectVisibleTags
        (setExpandedInTree (setExpandedInTree sampleForest [1] true) [1] false)
      = collectVisibleTags sampleForest :=
  c9_expand_collapse_roundtrip sampleForest [1] sampleSeq rfl rfl rfl

/-! C4 — display-value truncation on arbitrary Unicode input -/

set_option maxRecDepth 4000 in
/-- C4 (code bug): the claim says truncation returns without failure for
arbitrary Unicode input. It does not: `truncate_value` compares `max_len`
against the UTF-8 *byte* length and slices `&s[..256]` at a byte index, so a
string of 129 euro signs (387 bytes, 129 characters) is truncated at byte
256, which falls inside a character — a Rust panic, modelled here as `none`.
(The struct documentation even promises truncation only "if longer than 256
characters".) -/
theorem c4_truncate_value_panics_on_multibyte :
    truncate_value (List.replicate 129 (Char.ofNat 0x20AC)) 256 = none := by
  decide

/-! C1 — Changed annotation and the baseline value -/

/-- C1 (code bug): the claim (with the spec, `src/ui.rs` and
`tests/dicom_tests.rs`) says a Changed root carries the baseline display
value alongside the modified one. In `src/dicom.rs` it cannot: `DiffStatus::
Changed` carries no payload and `DicomTag` has no `baseline_value` field, so
for a root whose value changed from "A" to "B" the diff output is exactly
the modified tag with status `Changed` — the baseline value "A" is dropped. -/
theorem c1_changed_keeps_only_modified_value :
    compareDicomTags [sampleLeaf "(0010,0010)" "PatientName" "A" 0]
        [sampleLeaf "(0010,0010)" "PatientName" "B" 0]
      = [(sampleLeaf "(0010,0010)" "PatientName" "B" 0).withDiffStatus (some .Changed)] := by
  unfold compareDicomTags
  rw [List.mergeSort_of_sorted (by decide)]
  rfl

theorem is_tag_present_iff (obj : DicomObject) (t : AttrTag) :
    is_tag_present obj t = true ↔ FieldPresent obj t := by
  cases h : element? obj t with
  | none => simp [is_tag_present, FieldPresent, h]
  | some e =>
    cases he : e.toStr with
    | none => simp [is_tag_present, FieldPresent, h, he]
    | some s => simp [is_tag_present, FieldPresent, h, he, List.isEmpty_iff]

theorem pushMissing_eq_filter (obj : DicomObject) (table : List (AttrTag × Str)) :
    pushMissing obj table
      = (table.filter (fun p => !is_tag_present obj p.1)).map Prod.snd := by
  induction table with
  | nil => rfl
  | cons p rest ih =>
    obtain ⟨t, n⟩ := p
    by_cases hp : is_tag_present obj t
    · simp [pushMissing, hp, ih]
    · simp [pushMissing, hp, ih]

theorem finishValidation_eq (obj : DicomObject) (modality_tags : List (AttrTag × Str)) :
    finishValidation obj modality_tags
      = (if (((commonTypeOneTables ++ modality_tags).filter
              (fun p => !is_tag_present obj p.1)).map Prod.snd).isEmpty
         then .Valid
         else .Invalid (((commonTypeOneTables ++ modality_tags).filter
              (fun p => !is_tag_present obj p.1)).map Prod.snd)) := by
  simp only [finishValidation, commonTypeOneTables, pushMissing_eq_filter,
    List.filter_append, List.map_append, List.append_assoc]

/-- C3: validation returns `NotApplicable` whenever the SOP Class identifier
is absent (no element, or no textual value) or, after trimming, matches
neither the CT nor the MR storage class — regardless of field completeness.
Otherwise every field of the common tables followed by the selected modality
table is checked in table order, where "present" means exactly the claim's
`FieldPresent`; the result is `Valid` iff no field is missing and otherwise
`Invalid` with the missing display names in rule-table order. -/
theorem c3_validation_characterization (obj : DicomObject) :
    (∀ t, is_tag_present obj t = true ↔ FieldPresent obj t) ∧
    ((element? obj SOP_CLASS_UID).bind (·.toStr) = none →
      validate_type1_fields obj = .NotApplicable) ∧
    (∀ u, (element? obj SOP_CLASS_UID).bind (·.toStr) = some u →
      (trim u ≠ CT_IMAGE_STORAGE → trim u ≠ MR_IMAGE_STORAGE →
        validate_type1_fields obj = .NotApplicable) ∧
      (trim u = CT_IMAGE_STORAGE →
        validate_type1_fields obj
          = (if (((commonTypeOneTables ++ CT_IMAGE_TYPE1_TAGS).filter
                  (fun p => !is_tag_present obj p.1)).map Prod.snd).isEmpty
             then .Valid
             else .Invalid (((commonTypeOneTables ++ CT_IMAGE_TYPE1_TAGS).filter
                  (fun p => !is_tag_present obj p.1)).map Prod.snd))) ∧
      (trim u = MR_IMAGE_STORAGE →
        validate_type1_fields obj
          = (if (((commonTypeOneTables ++ MR_IMAGE_TYPE1_TAGS).filter
                  (fun p => !is_tag_present obj p.1)).map Prod.snd).isEmpty
             then .Valid
             else .Invalid (((commonTypeOneTables ++ MR_IMAGE_TYPE1_TAGS).filter
                  (fun p => !is_tag_present obj p.1)).map Prod.snd)))) := by
  refine ⟨is_tag_present_iff obj, ?_, ?_⟩
  · intro h
    simp [validate_type1_fields, h]
  · intro u hu
    have hct : CT_IMAGE_STORAGE ≠ MR_IMAGE_STORAGE := by decide
    refine ⟨?_, ?_, ?_⟩
    · intro h1 h2
      simp [validate_type1_fields, hu, h1, h2]
    · intro h1
      simp [validate_type1_fields, hu, h1, finishValidation_eq]
    · intro h2
      have h1 : trim u ≠ CT_IMAGE_STORAGE := by
        rw [h2]
        exact fun hc => hct hc.symm
      simp [validate_type1_fields, hu, h1, h2, finishValidation_eq]
      intro hc
      exact absurd hc (by decide)

/-- Witness for C3: the complete CT object validates `Valid` through the CT
branch of the characterization; the empty object (no SOP Class UID) is
`NotApplicable`; an unrecognized SOP Class UID is `NotApplicable`. -/
theorem c3_validation_characterization_witness :
    validate_type1_fields sampleCtObject = .Valid ∧
    validate_type1_fields [] = .NotApplicable ∧
    validate_type1_fields [⟨(0x0008, 0x0016), some (str "1.2.3")⟩] = .NotApplicable := by
  refine ⟨?_, ?_, ?_⟩
  · have h := (((c3_validation_characterization sampleCtObject).2.2
      (str "1.2.840.10008.5.1.4.1.1.2") rfl).2.1 (by decide))
    rw [h]
    decide
  · exact (c3_validation_characterization []).2.1 rfl
  · exact (((c3_validation_characterization
      [⟨(0x0008, 0x0016), some (str "1.2.3")⟩]).2.2 (str "1.2.3") rfl).1
      (by decide) (by decide))

/-! App-state plumbing lemmas -/

@[simp] theorem resetSelection_all_tags (s : AppState) :
    (resetSelection s).all_tags = s.all_tags := by
  simp [resetSelection]
  split <;> rfl

@[simp] theorem resetSelection_filtered_tags (s : AppState) :
    (resetSelection s).filtered_tags = s.filtered_tags := by
  simp [resetSelection]
  split <;> rfl

@[simp] theorem resetSelection_tags (s : AppState) : (resetSelection s).tags = s.tags := by
  simp [resetSelection]
  split <;> rfl

theorem resetSelection_selected (s : AppState) :
    (resetSelection s).selected = if s.tags.isEmpty then none else some 0 := by
  simp [resetSelection]
  split <;> simp

@[simp] theorem rebuildVisibleTags_all_tags (s : AppState) :
    (rebuildVisibleTags s).all_tags = s.all_tags := rfl

@[simp] theorem rebuildVisibleTags_filtered_tags (s : AppState) :
    (rebuildVisibleTags s).filtered_tags = s.filtered_tags := rfl

@[simp] theorem rebuildVisibleTags_selected (s : AppState) :
    (rebuildVisibleTags s).selected = s.selected := rfl

@[simp] theorem rebuildVisibleTags_tags (s : AppState) :
    (rebuildVisibleTags s).tags = collectVisibleTags (activeTags s) := rfl

theorem setActive_of_isSome (s : AppState) (src : List DicomTag)
    (h : s.filtered_tags.isSome = true) :
    setActive s src = { s with filtered_tags := some src } := by
  cases hf : s.filtered_tags with
  | none => rw [hf] at h; simp at h
  | some f => simp [setActive, hf]

theorem setActive_of_none (s : AppState) (src : List DicomTag)
    (h : s.filtered_tags = none) :
    setActive s src = { s with all_tags := src } := by
  simp [setActive, h]

theorem activeTags_of_some (s : AppState) (f : List DicomTag)
    (h : s.filtered_tags = some f) : activeTags s = f := by
  simp [activeTags, h]

theorem activeTags_of_none (s : AppState) (h : s.filtered_tags = none) :
    activeTags s = s.all_tags := by
  simp [activeTags, h]

/-! C8 — the search filter -/

/-- C8: for a non-empty query, filtering retains a root iff its identifier
or name contains the query as a case-insensitive substring; every retained
root is kept whole (the filtered subset is a sublist of the original roots,
nodes untouched with their entire subtrees), and the view is the projection
of the filtered subset. An empty query disables filtering, so the unfiltered
forest drives the view. Either way the cursor is reset to the first visible
row, or to no selection when the resulting projection is empty. -/
theorem c8_filter_policy_and_reset (s : AppState) :
    (s.search_query ≠ [] →
      ∃ F, (filterTags s).filtered_tags = some F ∧
        F.Sublist s.all_tags ∧
        (∀ t, t ∈ s.all_tags →
          (t ∈ F ↔ (lowerStr s.search_query <:+: lowerStr t.tag ∨
                    lowerStr s.search_query <:+: lowerStr t.name))) ∧
        (filterTags s).tags = collectVisibleTags F) ∧
    (s.search_query = [] →
      (filterTags s).filtered_tags = none ∧
      (filterTags s).tags = collectVisibleTags s.all_tags) ∧
    ((filterTags s).selected = if (filterTags s).tags.isEmpty then none else some 0) := by
  refine ⟨?_, ?_, ?_⟩
  · intro hq
    have hq' : ¬ s.search_query.isEmpty := by simpa [List.isEmpty_iff] using hq
    refine ⟨s.all_tags.filter (fun t =>
      decide (lowerStr s.search_query <:+: lowerStr t.tag) ||
      decide (lowerStr s.search_query <:+: lowerStr t.name)), ?_, ?_, ?_, ?_⟩
    · simp [filterTags, hq']
    · exact List.filter_sublist _
    · intro t ht
      simp [List.mem_filter, ht]
    · simp [filterTags, hq', activeTags]
  · intro hq
    have hq' : s.search_query.isEmpty := by simp [hq]
    constructor
    · simp [filterTags, hq']
    · simp [filterTags, hq', activeTags]
  · rw [filterTags, resetSelection_selected, resetSelection_tags]

/-- Witness for C8 on the sample forest: the query "0010" produces a filtered
subset that is a sublist of the roots containing exactly the matching root;
the empty query leaves filtering disabled and the unfiltered projection in
place. -/
theorem c8_filter_policy_and_reset_witness :
    (∃ F, (filterTags (sampleSearchState (str "0010"))).filtered_tags = some F ∧
      F.Sublist sampleForest ∧
      (sampleLeaf "(0010,0010)" "PatientName" "DOE^JOHN" 0 ∈ F ∧ sampleSeq ∉ F)) ∧
    (filterTags (sampleSearchState [])).filtered_tags = none ∧
    (filterTags (sampleSearchState [])).tags = collectVisibleTags sampleForest := by
  refine ⟨?_, ?_⟩
  · obtain ⟨F, h1, h2, h3, _⟩ :=
      (c8_filter_policy_and_reset (sampleSearchState (str "0010"))).1 (by decide)
    refine ⟨F, h1, h2, ?_, ?_⟩
    · exact (h3 _ (by simp [sampleSearchState, sampleForest])).mpr (by decide)
    · intro hc
      have := (h3 sampleSeq (by simp [sampleSearchState, sampleForest])).mp hc
      revert this
      decide
  · exact (c8_filter_policy_and_reset (sampleSearchState [])).2.1 rfl

/-! C10 — mutations under an active filter never touch the unfiltered tree -/

theorem applyViewOp_preserves (s : AppState) (op : ViewOp)
    (h : s.filtered_tags.isSome = true) :
    (applyViewOp s op).all_tags = s.all_tags ∧
    (applyViewOp s op).filtered_tags.isSome = true := by
  cases op with
  | expand =>
    rw [applyViewOp, expandSelected]
    split
    · exact ⟨rfl, h⟩
    · split
      · dsimp only
        split
        · rw [setActive_of_isSome s _ h]
          exact ⟨rfl, rfl⟩
        · exact ⟨rfl, h⟩
      · exact ⟨rfl, h⟩
  | collapse =>
    rw [applyViewOp, collapseParent]
    split
    · exact ⟨rfl, h⟩
    · split
      · split
        · split
          · dsimp only
            rw [setActive_of_isSome s _ h]
            exact ⟨rfl, rfl⟩
          · exact ⟨rfl, h⟩
        · exact ⟨rfl, h⟩
      · exact ⟨rfl, h⟩

theorem applyViewOps_preserves (ops : List ViewOp) (s : AppState)
    (h : s.filtered_tags.isSome = true) :
    (applyViewOps s ops).all_tags = s.all_tags ∧
    (applyViewOps s ops).filtered_tags.isSome = true := by
  induction ops generalizing s with
  | nil => exact ⟨rfl, h⟩
  | cons op ops ih =>
    have hstep : applyViewOps s (op :: ops) = applyViewOps (applyViewOp s op) ops := rfl
    rw [hstep]
    obtain ⟨h1, h2⟩ := applyViewOp_preserves s op h
    obtain ⟨h3, h4⟩ := ih (applyViewOp s op) h2
    exact ⟨h3.trans h1, h4⟩

theorem clearFilter_all_tags (s : AppState) : (clearFilter s).all_tags = s.all_tags := by
  simp [clearFilter]

theorem clearFilter_tags (s : AppState) :
    (clearFilter s).tags = collectVisibleTags s.all_tags := by
  simp [clearFilter, activeTags]

/-- C10: while a search filter is active, any sequence of expand/collapse
operations mutates only the cloned filtered subset — the unfiltered tree
(and in particular every one of its expansion flags) is completely
unchanged — so clearing the filter afterwards rebuilds the view from the
unfiltered tree in exactly its pre-filter expansion state. -/
theorem c10_filtered_mutations_leave_unfiltered_tree (s : AppState) (ops : List ViewOp)
    (h : s.filtered_tags.isSome = true) :
    (applyViewOps s ops).all_tags = s.all_tags ∧
    (clearFilter (applyViewOps s ops)).all_tags = s.all_tags ∧
    (clearFilter (applyViewOps s ops)).tags = collectVisibleTags s.all_tags := by
  obtain ⟨h1, _⟩ := applyViewOps_preserves ops s h
  refine ⟨h1, ?_, ?_⟩
  · rw [clearFilter_all_tags, h1]
  · rw [clearFilter_tags, h1]

/-- C6: for every forest and every `visible_index` inside the visibility
projection, `build_path_to_tag` returns a chain of child indices leading
from a root to exactly the node shown at that position of the projection
(the locator performs the projector's traversal); for every out-of-range
`visible_index` it returns the empty path. -/
theorem c6_path_locator_exact (tags : List DicomTag) (idx : Nat) :
    (idx < (collectVisibleTags tags).length →
      getAtPath tags (buildPathToTag tags idx) = (collectVisibleTags tags)[idx]?) ∧
    ((collectVisibleTags tags).length ≤ idx → buildPathToTag tags idx = []) := by
  constructor
  · intro hlt
    obtain ⟨j, p, n, c, e1, e2, e3, _⟩ :=
      findPath_found tags idx 0 (Nat.zero_le idx) (by omega)
    rw [buildPathToTag, e1, e2]
    simpa using e3.symm
  · intro hge
    rw [buildPathToTag, findPath_fail tags idx 0 (Or.inr (by omega))]

/-- Witness for C6 on the expanded sample forest: visible position 2 resolves
to the path reaching the first child of the sequence root, and position 9 is
out of range, yielding the empty path. -/
theorem c6_path_locator_exact_witness :
    getAtPath sampleForestExpanded (buildPathToTag sampleForestExpanded 2)
        = (collectVisibleTags sampleForestExpanded)[2]? ∧
    buildPathToTag sampleForestExpanded 9 = [] :=
  ⟨(c6_path_locator_exact sampleForestExpanded 2).1 (by
      simp [sampleForestExpanded, sampleSeqExpanded, sampleLeaf,
        collectVisibleTags_cons, collectVisibleTags_nil]),
   (c6_path_locator_exact sampleForestExpanded 9).2 (by
      simp [sampleForestExpanded, sampleSeqExpanded, sampleLeaf,
        collectVisibleTags_cons, collectVisibleTags_nil])⟩

theorem depthOkF_nil (d : Nat) : depthOkF d [] = true := by
  rw [depthOkF]

theorem depthOkF_cons (d : Nat) (t : DicomTag) (rest : List DicomTag) :
    depthOkF d (t :: rest)
      = ((t.depth == d) && depthOkF (d + 1) t.children && depthOkF d rest) := by
  rw [depthOkF]

theorem scanBack_zero (tags : List DicomTag) (D : Nat) : scanBack tags 0 D = none := by
  simp [scanBack]

theorem scanBack_succ (tags : List DicomTag) (idx D : Nat) :
    scanBack tags (idx + 1) D
      = if scanPred tags D idx then some idx else scanBack tags idx D := by
  rw [scanBack, scanBack, List.range_succ, List.reverse_append]
  by_cases hp : scanPred tags D idx
  · simp [hp]
  · simp [hp]

theorem scanBack_spec (tags : List DicomTag) (D : Nat) : ∀ idx,
    (∀ i, scanBack tags idx D = some i →
        i < idx ∧ scanPred tags D i = true ∧
        (∀ k, i < k → k < idx → scanPred tags D k = false)) ∧
    (scanBack tags idx D = none → ∀ k, k < idx → scanPred tags D k = false) := by
  intro idx
  induction idx with
  | zero =>
    constructor
    · intro i h
      rw [scanBack_zero] at h
      cases h
    · intro _ k hk
      omega
  | succ n ih =>
    rw [scanBack_succ]
    by_cases hp : scanPred tags D n = true
    · rw [if_pos hp]
      constructor
      · intro i h
        have hi : i = n := by
          injection h with h
          exact h.symm
        subst hi
        exact ⟨Nat.lt_succ_self _, hp, fun k hk1 hk2 => by omega⟩
      · intro h
        cases h
    · rw [if_neg hp]
      constructor
      · intro i h
        obtain ⟨h1, h2, h3⟩ := ih.1 i h
        refine ⟨by omega, h2, fun k hk1 hk2 => ?_⟩
        by_cases hkn : k = n
        · subst hkn
          simpa using hp
        · exact h3 k hk1 (by omega)
      · intro h k hk
        by_cases hkn : k = n
        · subst hkn
          simpa using hp
        · exact ih.2 h k (by omega)

theorem depth_lower_bound : ∀ (tags : List DicomTag) (d : Nat), depthOkF d tags = true →
    ∀ (i : Nat) (n : DicomTag), (collectVisibleTags tags)[i]? = some n → d ≤ n.depth := by
  intro tags
  induction tags using forest_induction with
  | nil =>
    intro d _ i n h
    rw [collectVisibleTags_nil] at h
    simp at h
  | cons t rest ihc ihr =>
    intro d hD i n h
    rw [depthOkF_cons] at hD
    simp only [Bool.and_eq_true, beq_iff_eq] at hD
    obtain ⟨⟨hdt, hDc⟩, hDr⟩ := hD
    rw [collectVisibleTags_cons] at h
    cases i with
    | zero =>
      simp at h
      subst h
      omega
    | succ k =>
      rw [List.getElem?_cons_succ] at h
      by_cases hexp : (t.is_expanded && !t.children.isEmpty) = true
      · rw [if_pos hexp] at h
        by_cases hk : k < (collectVisibleTags t.children).length
        · rw [List.getElem?_append_left hk] at h
          have := ihc (d + 1) hDc k n h
          omega
        · rw [List.getElem?_append_right (Nat.not_lt.mp hk)] at h
          exact ihr d hDr _ n h
      · rw [if_neg hexp] at h
        simp only [List.nil_append] at h
        exact ihr d hDr k n h

theorem visible_ancestor : ∀ (tags : List DicomTag) (d : Nat), depthOkF d tags = true →
    ∀ (idx : Nat) (n : DicomTag), (collectVisibleTags tags)[idx]? = some n → d < n.depth →
    ∃ (i : Nat) (m : DicomTag), i < idx ∧ (collectVisibleTags tags)[i]? = some m ∧ m.depth < n.depth ∧
      m.is_expanded = true := by
  intro tags
  induction tags using forest_induction with
  | nil =>
    intro d _ idx n h
    rw [collectVisibleTags_nil] at h
    simp at h
  | cons t rest ihc ihr =>
    intro d hD idx n h hdn
    rw [depthOkF_cons] at hD
    simp only [Bool.and_eq_true, beq_iff_eq] at hD
    obtain ⟨⟨hdt, hDc⟩, hDr⟩ := hD
    rw [collectVisibleTags_cons] at h
    cases idx with
    | zero =>
      simp at h
      subst h
      omega
    | succ k =>
      rw [List.getElem?_cons_succ] at h
      by_cases hexp : (t.is_expanded && !t.children.isEmpty) = true
      · rw [if_pos hexp] at h
        by_cases hk : k < (collectVisibleTags t.children).length
        · rw [List.getElem?_append_left hk] at h
          have hlb : d + 1 ≤ n.depth := depth_lower_bound t.children (d + 1) hDc k n h
          by_cases hnd : d + 1 < n.depth
          · obtain ⟨i, m, hi, hC, hmd, hme⟩ := ihc (d + 1) hDc k n h hnd
            have hib : i < (collectVisibleTags t.children).length := by omega
            refine ⟨i + 1, m, by omega, ?_, hmd, hme⟩
            rw [collectVisibleTags_cons, List.getElem?_cons_succ, if_pos hexp,
              List.getElem?_append_left hib]
            exact hC
          · refine ⟨0, t, by omega, ?_, by omega, ?_⟩
            · rw [collectVisibleTags_cons]
              simp
            · simpa using (Bool.and_eq_true _ _ |>.mp hexp).1
        · rw [List.getElem?_append_right (Nat.not_lt.mp hk)] at h
          obtain ⟨i, m, hi, hR, hmd, hme⟩ := ihr d hDr _ n h hdn
          refine ⟨1 + (collectVisibleTags t.children).length + i, m, by omega, ?_, hmd, hme⟩
          have hrw : 1 + (collectVisibleTags t.children).length + i
              = ((collectVisibleTags t.children).length + i) + 1 := by omega
          rw [collectVisibleTags_cons, hrw, List.getElem?_cons_succ, if_pos hexp,
            List.getElem?_append_right (by omega)]
          have hsub : (collectVisibleTags t.children).length + i
              - (collectVisibleTags t.children).length = i := by omega
          rw [hsub]
          exact hR
      · rw [if_neg hexp] at h
        simp only [List.nil_append] at h
        obtain ⟨i, m, hi, hR, hmd, hme⟩ := ihr d hDr k n h hdn
        refine ⟨i + 1, m, by omega, ?_, hmd, hme⟩
        rw [collectVisibleTags_cons, List.getElem?_cons_succ, if_neg hexp,
          List.nil_append]
        exact hR

theorem activeTags_setActive (s : AppState) (src : List DicomTag) :
    activeTags (setActive s src) = src := by
  cases hf : s.filtered_tags with
  | none => simp [setActive, hf, activeTags]
  | some f => simp [setActive, hf, activeTags]

theorem collapseParent_success (s : AppState) (idx i0 : Nat) (hsel : s.selected = some idx)
    (hlt : idx < s.tags.length) (hd : 0 < (s.tags.get ⟨idx, hlt⟩).depth)
    (hscan : scanBack s.tags idx (s.tags.get ⟨idx, hlt⟩).depth = some i0) :
    (collapseParent s).selected = some i0 ∧
    activeTags (collapseParent s)
      = setExpandedInTree (activeTags s) (buildPathToTag (activeTags s) i0) false ∧
    (collapseParent s).tags
      = collectVisibleTags
          (setExpandedInTree (activeTags s) (buildPathToTag (activeTags s) i0) false) := by
  simp only [collapseParent, hsel]
  rw [dif_pos hlt, if_pos hd, hscan]
  dsimp only
  cases hf : s.filtered_tags with
  | some f =>
    rw [setActive_of_isSome s _ (by rw [hf]; rfl)]
    refine ⟨rfl, ?_, ?_⟩
    · simp [activeTags, rebuildVisibleTags]
    · simp [activeTags, rebuildVisibleTags]
  | none =>
    rw [setActive_of_none s _ hf]
    refine ⟨rfl, ?_, ?_⟩
    · simp [activeTags, rebuildVisibleTags, hf]
    · simp [activeTags, rebuildVisibleTags, hf]

theorem collapseParent_noop_shallow (s : AppState) (idx : Nat) (hsel : s.selected = some idx)
    (hlt : idx < s.tags.length) (hd : ¬ 0 < (s.tags.get ⟨idx, hlt⟩).depth) :
    collapseParent s = s := by
  simp only [collapseParent, hsel]
  rw [dif_pos hlt, if_neg hd]

/-- C7: in a consistent state (flattened view = projection of the active
forest, depth fields well-formed) with the cursor on visible row `idx`
showing node `n`: if `n` has depth 0 the operation is a no-op; if `n.depth
> 0`, `collapse_parent` finds the nearest preceding visible node with depth
smaller than `n`'s and `expanded = true` (it exists, and no node strictly
between it and the cursor qualifies), collapses exactly that node through
its structural path, and moves the cursor to that node's new visible
position — the recomputed projection shows the collapsed node at the new
cursor index. -/
theorem c7_collapse_parent_nearest_ancestor (s : AppState) (idx : Nat) (n : DicomTag)
    (hcons : s.tags = collectVisibleTags (activeTags s))
    (hdepth : depthOkF 0 (activeTags s) = true)
    (hsel : s.selected = some idx)
    (hn : s.tags[idx]? = some n) :
    (n.depth = 0 → collapseParent s = s) ∧
    (0 < n.depth → ∃ (i : Nat) (m : DicomTag),
      scanBack s.tags idx n.depth = some i ∧
      i < idx ∧ s.tags[i]? = some m ∧ m.depth < n.depth ∧ m.is_expanded = true ∧
      (∀ k, i < k → k < idx → ∀ m2, s.tags[k]? = some m2 →
          ¬(m2.depth < n.depth ∧ m2.is_expanded = true)) ∧
      getAtPath (activeTags s) (buildPathToTag (activeTags s) i) = some m ∧
      activeTags (collapseParent s)
        = setExpandedInTree (activeTags s) (buildPathToTag (activeTags s) i) false ∧
      (collapseParent s).selected = some i ∧
      (collapseParent s).tags = collectVisibleTags (activeTags (collapseParent s)) ∧
      (collapseParent s).tags[i]? = some (m.withExpanded false)) := by
  have hlt : idx < s.tags.length := (List.getElem?_eq_some.mp hn).1
  have hgetn : s.tags[idx] = n := by
    have h2 := List.getElem?_eq_getElem hlt
    rw [hn] at h2
    exact (Option.some.inj h2).symm
  have hDeq : (s.tags.get ⟨idx, hlt⟩).depth = n.depth := by
    simp only [List.get_eq_getElem, hgetn]
  constructor
  · intro hd0
    exact collapseParent_noop_shallow s idx hsel hlt (by omega)
  · intro hd
    have hvn : (collectVisibleTags (activeTags s))[idx]? = some n := by
      rw [← hcons]
      exact hn
    obtain ⟨a, m1, ha_lt, ham, hamd, hame⟩ :=
      visible_ancestor (activeTags s) 0 hdepth idx n hvn hd
    have hpred_a : scanPred s.tags n.depth a = true := by
      rw [scanPred]
      have hga : s.tags.get? a = some m1 := by
        rw [List.get?_eq_getElem?, hcons]
        exact ham
      rw [hga]
      simp [hamd, hame]
    cases hscan : scanBack s.tags idx n.depth with
    | none =>
      have hfalse := (scanBack_spec s.tags n.depth idx).2 hscan a ha_lt
      rw [hpred_a] at hfalse
      cases hfalse
    | some i0 =>
      obtain ⟨hi0_lt, hpred_i0, hmin⟩ := (scanBack_spec s.tags n.depth idx).1 i0 hscan
      have hdec : ∃ m, s.tags.get? i0 = some m ∧ m.depth < n.depth ∧ m.is_expanded = true := by
        revert hpred_i0
        rw [scanPred]
        cases hg : s.tags.get? i0 with
        | none => intro hc; cases hc
        | some m =>
          intro hc
          simp at hc
          exact ⟨m, rfl, hc.1, hc.2⟩
      obtain ⟨m, hgm, hmd, hme⟩ := hdec
      have hgm2 : s.tags[i0]? = some m := by
        rw [← List.get?_eq_getElem?]
        exact hgm
      have hvi0 : (collectVisibleTags (activeTags s))[i0]? = some m := by
        rw [← hcons]
        exact hgm2
      have hlenV : s.tags.length = (collectVisibleTags (activeTags s)).length := by
        rw [hcons]
      obtain ⟨j, p, n0, c, e1, e2, e3, e4⟩ :=
        findPath_found (activeTags s) i0 0 (Nat.zero_le _) (by omega)
      rw [Nat.sub_zero] at e3 e4
      have hn0m : n0 = m := by
        rw [hvi0] at e3
        exact (Option.some.inj e3).symm
      rw [hn0m] at e2 e4
      have hbuild : buildPathToTag (activeTags s) i0 = j :: p := by
        rw [buildPathToTag, e1]
      have hscan2 : scanBack s.tags idx (s.tags.get ⟨idx, hlt⟩).depth = some i0 := by
        rw [hDeq]
        exact hscan
      obtain ⟨hcp_sel, hcp_act, hcp_tags⟩ :=
        collapseParent_success s idx i0 hsel hlt (by omega) hscan2
      refine ⟨i0, m, rfl, hi0_lt, hgm2, hmd, hme, ?_, ?_, ?_, ?_, ?_, ?_⟩
      · intro k hk1 hk2 m2 hm2
        have hpk := hmin k hk1 hk2
        rw [scanPred] at hpk
        rw [← List.get?_eq_getElem?] at hm2
        rw [hm2] at hpk
        intro hc
        simp [hc.1, hc.2] at hpk
      · rw [hbuild]
        exact e2
      · exact hcp_act
      · exact hcp_sel
      · rw [hcp_tags, hcp_act]
      · rw [hcp_tags, hbuild]
        exact e4

/-- Witness for C7: with the cursor on the depth-1 row of the sample state,
`collapse_parent` collapses the sequence root and leaves the cursor on its
visible position, row 1, where the collapsed node now appears. -/
theorem c7_collapse_parent_nearest_ancestor_witness :
    (collapseParent sampleCollapseState).selected = some 1 ∧
    (collapseParent sampleCollapseState).tags[1]?
      = some (sampleSeqExpanded.withExpanded false) := by
  obtain ⟨i, m, hscan, _, hgm, _, _, _, _, _, hsel2, _, hpos⟩ :=
    (c7_collapse_parent_nearest_ancestor sampleCollapseState 2
      (sampleLeaf "(0008,0100)" "CodeValue" "121327" 1)
      (by simp [sampleCollapseState, sampleForestExpanded, sampleSeqExpanded, sampleLeaf,
        activeTags, collectVisibleTags_cons, collectVisibleTags_nil])
      (by simp [sampleCollapseState, sampleForestExpanded, sampleSeqExpanded, sampleLeaf,
        activeTags, depthOkF_cons, depthOkF_nil])
      rfl rfl).2 (by decide)
  have hi : i = 1 := by
    have heval : scanBack sampleCollapseState.tags 2
        (sampleLeaf "(0008,0100)" "CodeValue" "121327" 1).depth = some 1 := by
      decide
    rw [heval] at hscan
    exact (Option.some.inj hscan).symm
  subst hi
  have hm : m = sampleSeqExpanded := by
    have heval : sampleCollapseState.tags[1]? = some sampleSeqExpanded := rfl
    rw [heval] at hgm
    exact (Option.some.inj hgm).symm
  subst hm
  exact ⟨hsel2, hpos⟩

/-- Witness for C10: expanding then collapsing inside the filtered view of
the sample state leaves the unfiltered forest untouched, and clearing the
filter restores its projection. -/
theorem c10_filtered_mutations_leave_unfiltered_tree_witness :
    (applyViewOps sampleFilteredState [ViewOp.expand, ViewOp.collapse]).all_tags
        = sampleForest ∧
    (clearFilter (applyViewOps sampleFilteredState [ViewOp.expand, ViewOp.collapse])).tags
        = collectVisibleTags sampleForest :=
  ⟨(c10_filtered_mutations_leave_unfiltered_tree sampleFilteredState
      [ViewOp.expand, ViewOp.collapse] rfl).1,
   (c10_filtered_mutations_leave_unfiltered_tree sampleFilteredState
      [ViewOp.expand, ViewOp.collapse] rfl).2.2⟩

theorem compareDicomTags_eq (A B : List DicomTag) :
    compareDicomTags A B = (processedTags A B ++ deletedTags A B).mergeSort tagLe := rfl

theorem lookupBaseline_eq_none (A : List DicomTag) (id : Str) :
    lookupBaseline A id = none ↔ id ∉ A.map DicomTag.tag := by
  simp [lookupBaseline, List.find?_eq_none, List.mem_map]

theorem find?_unique {α : Type _} (p : α → Bool) :
    ∀ (l : List α) (b : α), b ∈ l → p b = true →
    (∀ x ∈ l, p x = true → x = b) → l.find? p = some b := by
  intro l
  induction l with
  | nil =>
    intro b hb
    cases hb
  | cons x xs ih =>
    intro b hb hpb huniq
    by_cases hpx : p x = true
    · rw [List.find?_cons_of_pos _ hpx]
      rw [huniq x (List.mem_cons_self x xs) hpx]
    · rw [List.find?_cons_of_neg _ (by simpa using hpx)]
      have hbxs : b ∈ xs := by
        cases List.mem_cons.mp hb with
        | inl h =>
          subst h
          exact absurd hpb hpx
        | inr h => exact h
      exact ih b hbxs hpb (fun y hy hpy => huniq y (List.mem_cons_of_mem x hy) hpy)

theorem lookupBaseline_mem (A : List DicomTag) (b : DicomTag)
    (hA : (A.map DicomTag.tag).Nodup) (hb : b ∈ A) :
    lookupBaseline A b.tag = some b := by
  rw [lookupBaseline]
  apply find?_unique
  · simpa using hb
  · simp
  · intro x hx hpx
    have hx2 : x ∈ A := by simpa using hx
    have htag : x.tag = b.tag := by simpa using hpx
    exact List.inj_on_of_nodup_map hA hx2 hb htag

theorem countP_tag_eq (l : List DicomTag) (hN : (l.map DicomTag.tag).Nodup) (id : Str) :
    l.countP (fun e => e.tag == id) = if id ∈ l.map DicomTag.tag then 1 else 0 := by
  induction l with
  | nil => simp
  | cons x xs ih =>
    rw [List.map_cons, List.nodup_cons] at hN
    rw [List.countP_cons]
    by_cases hx : x.tag = id
    · subst hx
      rw [ih hN.2]
      simp [hN.1]
    · have hbeq : (x.tag == id) = false := by simpa using hx
      have hmem : id ∈ List.map DicomTag.tag (x :: xs) ↔ id ∈ List.map DicomTag.tag xs := by
        rw [List.map_cons, List.mem_cons]
        constructor
        · rintro (h | h)
          · exact absurd h.symm hx
          · exact h
        · exact Or.inr
      rw [hbeq, ih hN.2]
      simp only [hmem, Bool.false_eq_true, if_false, Nat.add_zero]
theorem countP_processedTags (A B : List DicomTag) (id : Str) :
    (processedTags A B).countP (fun e => e.tag == id) = B.countP (fun m => m.tag == id) := by
  rw [processedTags, List.countP_map]
  apply List.countP_congr
  intro m hm
  simp [Function.comp]

theorem lookupBaseline_isSome (A : List DicomTag) (id : Str) :
    (lookupBaseline A id).isSome = true ↔ id ∈ A.map DicomTag.tag := by
  have h := lookupBaseline_eq_none A id
  cases hl : lookupBaseline A id with
  | none =>
    rw [hl] at h
    simp [h.mp rfl]
  | some b =>
    rw [hl] at h
    simp only [Option.isSome_some, true_iff]
    by_contra hc
    exact absurd (h.mpr hc) (by simp)

theorem seenTags_contains (A B : List DicomTag) (id : Str) :
    ((B.filter (fun m => (lookupBaseline A m.tag).isSome)).map (·.tag)).contains id = true
      ↔ (id ∈ B.map DicomTag.tag ∧ id ∈ A.map DicomTag.tag) := by
  rw [List.contains_iff_exists_mem_beq]
  constructor
  · rintro ⟨x, hx, hbeq⟩
    obtain ⟨m, hmf, hmx⟩ := List.mem_map.mp hx
    obtain ⟨hmB, hmS⟩ := List.mem_filter.mp hmf
    have hxid : id = x := by simpa using hbeq
    subst hxid
    subst hmx
    exact ⟨List.mem_map.mpr ⟨m, hmB, rfl⟩, (lookupBaseline_isSome A m.tag).mp hmS⟩
  · rintro ⟨hB, hA⟩
    obtain ⟨m, hmB, hmid⟩ := List.mem_map.mp hB
    refine ⟨id, ?_, by simp⟩
    refine List.mem_map.mpr ⟨m, ?_, hmid⟩
    refine List.mem_filter.mpr ⟨hmB, ?_⟩
    rw [lookupBaseline_isSome A m.tag, hmid]
    exact hA
theorem countP_deletedTags (A B : List DicomTag) (id : Str) :
    (deletedTags A B).countP (fun e => e.tag == id)
      = A.countP (fun b => (b.tag == id) &&
          !(((B.filter (fun m => (lookupBaseline A m.tag).isSome)).map (·.tag)).contains
            b.tag)) := by
  rw [deletedTags, List.countP_map, List.countP_filter]
  apply List.countP_congr
  intro b hb
  simp [Function.comp]

theorem tagLe_trans (a b c : DicomTag) : tagLe a b → tagLe b c → tagLe a c := by
  simp only [tagLe, decide_eq_true_eq]
  exact le_trans

theorem tagLe_total (a b : DicomTag) : tagLe a b || tagLe b a := by
  simp only [tagLe, Bool.or_eq_true, decide_eq_true_eq]
  exact le_total _ _

/-- C2: with root identifiers unique within each file (the data model's
invariant; the spec flags duplicate identifiers as unsupported), the diff
output contains each identifier present only in the modified forest exactly
once, as that modified root annotated `Added` (carrying its display value);
each identifier present only in the baseline exactly once, as that baseline
root annotated `Deleted`; each identifier present in both exactly once, as
the modified root annotated `Unchanged` when the display values agree and
`Changed` when they differ; nothing else; and the output is sorted
ascending by identifier, independent of either input's ordering. -/
theorem c2_diff_engine_merge (A B : List DicomTag)
    (hA : (A.map DicomTag.tag).Nodup) (hB : (B.map DicomTag.tag).Nodup) :
    (∀ m ∈ B, m.tag ∉ A.map DicomTag.tag →
      m.withDiffStatus (some .Added) ∈ compareDicomTags A B ∧
      (compareDicomTags A B).countP (fun e => e.tag == m.tag) = 1) ∧
    (∀ b ∈ A, b.tag ∉ B.map DicomTag.tag →
      b.withDiffStatus (some .Deleted) ∈ compareDicomTags A B ∧
      (compareDicomTags A B).countP (fun e => e.tag == b.tag) = 1) ∧
    (∀ m ∈ B, ∀ b ∈ A, b.tag = m.tag →
      (b.value = m.value → m.withDiffStatus (some .Unchanged) ∈ compareDicomTags A B) ∧
      (b.value ≠ m.value → m.withDiffStatus (some .Changed) ∈ compareDicomTags A B) ∧
      (compareDicomTags A B).countP (fun e => e.tag == m.tag) = 1) ∧
    (∀ e ∈ compareDicomTags A B,
      e.tag ∈ A.map DicomTag.tag ∨ e.tag ∈ B.map DicomTag.tag) ∧
    (compareDicomTags A B).Pairwise (fun a b => a.tag ≤ b.tag) := by
  have hperm : List.Perm (compareDicomTags A B) (processedTags A B ++ deletedTags A B) := by
    rw [compareDicomTags_eq]
    exact List.mergeSort_perm _ _
  have hmemR : ∀ x, x ∈ compareDicomTags A B ↔ x ∈ processedTags A B ∨ x ∈ deletedTags A B := by
    intro x
    rw [hperm.mem_iff, List.mem_append]
  have hcountR : ∀ id, (compareDicomTags A B).countP (fun e => e.tag == id)
      = (processedTags A B).countP (fun e => e.tag == id)
        + (deletedTags A B).countP (fun e => e.tag == id) := by
    intro id
    rw [hperm.countP_eq, List.countP_append]
  refine ⟨?_, ?_, ?_, ?_, ?_⟩
  · -- Added
    intro m hm hnot
    have hlook : lookupBaseline A m.tag = none := (lookupBaseline_eq_none A m.tag).mpr hnot
    constructor
    · refine (hmemR _).mpr (Or.inl ?_)
      rw [processedTags]
      refine List.mem_map.mpr ⟨m, hm, ?_⟩
      simp only [hlook]
    · rw [hcountR, countP_processedTags, countP_deletedTags,
        countP_tag_eq B hB m.tag, if_pos (List.mem_map.mpr ⟨m, hm, rfl⟩)]
      have hz : A.countP (fun b => (b.tag == m.tag) &&
          !(((B.filter (fun x => (lookupBaseline A x.tag).isSome)).map (·.tag)).contains
            b.tag)) = 0 := by
        rw [List.countP_eq_zero]
        intro b hb hc
        simp only [Bool.and_eq_true, beq_iff_eq] at hc
        exact hnot (hc.1 ▸ List.mem_map.mpr ⟨b, hb, rfl⟩)
      rw [hz]
  · -- Deleted
    intro b hb hnot
    have hcont : (((B.filter (fun m => (lookupBaseline A m.tag).isSome)).map (·.tag)).contains
        b.tag) = false := by
      by_contra hc
      have := (seenTags_contains A B b.tag).mp (by
        cases h2 : (((B.filter (fun m => (lookupBaseline A m.tag).isSome)).map
            (·.tag)).contains b.tag) with
        | true => rfl
        | false => exact absurd h2 hc)
      exact hnot this.1
    constructor
    · refine (hmemR _).mpr (Or.inr ?_)
      rw [deletedTags]
      refine List.mem_map.mpr ⟨b, ?_, rfl⟩
      refine List.mem_filter.mpr ⟨hb, ?_⟩
      rw [hcont]
      rfl
    · rw [hcountR, countP_processedTags, countP_deletedTags,
        countP_tag_eq B hB b.tag, if_neg hnot]
      have ho : A.countP (fun x => (x.tag == b.tag) &&
          !(((B.filter (fun m => (lookupBaseline A m.tag).isSome)).map (·.tag)).contains
            x.tag)) = A.countP (fun x => x.tag == b.tag) := by
        apply List.countP_congr
        intro x hx
        by_cases hxt : x.tag = b.tag
        · simp only [hxt, hcont]
          simp
        · simp [hxt]
      rw [ho, countP_tag_eq A hA b.tag, if_pos (List.mem_map.mpr ⟨b, hb, rfl⟩)]
  · -- Unchanged / Changed
    intro m hm b hb heq
    have hlook : lookupBaseline A m.tag = some b := by
      rw [← heq]
      exact lookupBaseline_mem A b hA hb
    have hcont : (((B.filter (fun x => (lookupBaseline A x.tag).isSome)).map (·.tag)).contains
        m.tag) = true := by
      rw [seenTags_contains]
      exact ⟨List.mem_map.mpr ⟨m, hm, rfl⟩, heq ▸ List.mem_map.mpr ⟨b, hb, rfl⟩⟩
    refine ⟨?_, ?_, ?_⟩
    · intro hval
      refine (hmemR _).mpr (Or.inl ?_)
      rw [processedTags]
      refine List.mem_map.mpr ⟨m, hm, ?_⟩
      simp only [hlook]
      rw [if_pos (by simpa using hval)]
    · intro hval
      refine (hmemR _).mpr (Or.inl ?_)
      rw [processedTags]
      refine List.mem_map.mpr ⟨m, hm, ?_⟩
      simp only [hlook]
      rw [if_neg (by simpa using hval)]
    · rw [hcountR, countP_processedTags, countP_deletedTags,
        countP_tag_eq B hB m.tag, if_pos (List.mem_map.mpr ⟨m, hm, rfl⟩)]
      have hz : A.countP (fun x => (x.tag == m.tag) &&
          !(((B.filter (fun y => (lookupBaseline A y.tag).isSome)).map (·.tag)).contains
            x.tag)) = 0 := by
        rw [List.countP_eq_zero]
        intro x hx hc
        simp only [Bool.and_eq_true, beq_iff_eq] at hc
        rw [hc.1, hcont] at hc
        simpa using hc.2
      rw [hz]
  · -- no junk
    intro e he
    cases (hmemR e).mp he with
    | inl h =>
      obtain ⟨m, hm, hme⟩ := List.mem_map.mp (by rw [processedTags] at h; exact h)
      right
      refine List.mem_map.mpr ⟨m, hm, ?_⟩
      rw [← hme]
      simp
    | inr h =>
      obtain ⟨b, hbf, hbe⟩ := List.mem_map.mp (by rw [deletedTags] at h; exact h)
      left
      refine List.mem_map.mpr ⟨b, (List.mem_filter.mp hbf).1, ?_⟩
      rw [← hbe]
      simp
  · -- sortedness
    rw [compareDicomTags_eq]
    have hs := List.sorted_mergeSort
      (fun a b c => tagLe_trans a b c)
      (fun a b => tagLe_total a b)
      (processedTags A B ++ deletedTags A B)
    exact hs.imp (fun h => by simpa [tagLe] using h)

/-- Witness for C2 on the spec's scenario 2: Z comes out `Added`, Y
`Deleted`, X `Changed` (with the modified value), and the merged output is
sorted by identifier. -/
theorem c2_diff_engine_merge_witness :
    (sampleLeaf "(0010,0030)" "PatientBirthDate" "bar" 0).withDiffStatus (some .Added)
        ∈ compareDicomTags sampleBaselineRoots sampleModifiedRoots ∧
    (sampleLeaf "(0010,0020)" "PatientID" "foo" 0).withDiffStatus (some .Deleted)
        ∈ compareDicomTags sampleBaselineRoots sampleModifiedRoots ∧
    (sampleLeaf "(0010,0010)" "PatientName" "B" 0).withDiffStatus (some .Changed)
        ∈ compareDicomTags sampleBaselineRoots sampleModifiedRoots ∧
    (compareDicomTags sampleBaselineRoots sampleModifiedRoots).Pairwise
      (fun a b => a.tag ≤ b.tag) := by
  have h := c2_diff_engine_merge sampleBaselineRoots sampleModifiedRoots
    (by decide) (by decide)
  refine ⟨?_, ?_, ?_, h.2.2.2.2⟩
  · exact (h.1 _ (List.mem_cons_of_mem _ (List.mem_cons_self _ _)) (by decide)).1
  · exact (h.2.1 _ (List.mem_cons_of_mem _ (List.mem_cons_self _ _)) (by decide)).1
  · exact ((h.2.2.1 _ (List.mem_cons_self _ _) _ (List.mem_cons_self _ _)
      (by decide)).2.1 (by decide))

end Dcr
